import Mathlib

set_option maxRecDepth 100000

/-!
# BinToRoot: decoding of wavedump binary files

A shallow embedding of `Wrapper/Gain_Test/BinToRoot.cpp`.

* `std::ifstream` is a record holding the file content, the read cursor and
  the `eofbit` / `failbit` state flags; `IfStream.read` follows
  `std::istream::read` (an unformatted read that comes up short stores the
  bytes it got, and sets both flags; a read on a stream that is not `good`
  stores nothing).  The field `reads` counts the calls of `read`.
* `int` / `unsigned short` are decoded little-endian from the bytes read into
  a zero-initialised variable.
* `float` values are the values IEEE-754 binary32 can hold: NaN, the two
  infinities, and the finite ones as exact rationals (the two zeros are one
  value; the program only ever compares floats, and compares them equal).
  Decoding and comparison involve no rounding.
* `cout` output that depends on the data is kept as a log of one entry per
  completed pass through the body of the `while` loop.
* `nEvents` is an unbounded integer (a file of 2^31 records is out of reach).
-/

namespace BinToRoot

/-! ## The byte stream -/

abbrev Byte := Fin 256

/-- State of a `std::ifstream` over a file with content `data`. -/
structure IfStream where
  data : List Byte
  pos : Nat
  isOpen : Bool
  eofbit : Bool
  failbit : Bool
  reads : Nat
deriving DecidableEq, Repr

namespace IfStream

/-- Constructor `ifstream fileStream(fileName)`: `none` is a file that cannot
be opened, which leaves the stream closed with `failbit` set. -/
def ofFile : Option (List Byte) → IfStream
  | some data => ⟨data, 0, true, false, false, 0⟩
  | none => ⟨[], 0, false, false, true, 0⟩

def is_open (fs : IfStream) : Bool := fs.isOpen

def good (fs : IfStream) : Bool := !fs.eofbit && !fs.failbit

def eof (fs : IfStream) : Bool := fs.eofbit

/-- Call `fileStream.read((char*)&x, n)`, where `buf` are the `n` bytes of `x`
before the call; returns the stream after the call and the bytes of `x`. -/
def read (fs : IfStream) (buf : List Byte) : IfStream × List Byte :=
  if fs.good then
    let got := (fs.data.drop fs.pos).take buf.length
    if got.length = buf.length then
      ({ fs with pos := fs.pos + got.length, reads := fs.reads + 1 }, got)
    else
      ({ fs with pos := fs.pos + got.length, eofbit := true, failbit := true,
                 reads := fs.reads + 1 },
       got ++ buf.drop got.length)
  else
    ({ fs with failbit := true, reads := fs.reads + 1 }, buf)

/-- Call `fileStream.close()`. -/
def close (fs : IfStream) : IfStream := { fs with isOpen := false }

end IfStream

/-! ## Machine values -/

/-- Unsigned little-endian value of a byte sequence. -/
def leNat : List Byte → Nat
  | [] => 0
  | b :: bs => b.val + 256 * leNat bs

/-- Value of an `int` whose four bytes are `bs`. -/
def toInt32 (bs : List Byte) : Int :=
  let u : Nat := leNat bs % 2 ^ 32
  if u < 2 ^ 31 then (u : Int) else (u : Int) - 2 ^ 32

/-- Value of an `unsigned short` whose two bytes are `bs`. -/
def toUInt16 (bs : List Byte) : Nat := leNat bs % 2 ^ 16

/-- Values of a C++ `float` (IEEE-754 binary32). -/
inductive Float32 where
  | nan
  | ninf
  | fin (q : ℚ)
  | pinf
deriving DecidableEq, Repr

namespace Float32

/-- The comparison `a < b` of two floats. -/
def lt : Float32 → Float32 → Bool
  | nan, _ => false
  | _, nan => false
  | ninf, ninf => false
  | ninf, _ => true
  | _, ninf => false
  | fin a, fin b => decide (a < b)
  | fin _, pinf => true
  | pinf, _ => false

/-- The comparison `a > b` of two floats. -/
def gt (a b : Float32) : Bool := lt b a

/-- The comparison `a <= b` of two floats. -/
def le : Float32 → Float32 → Bool
  | nan, _ => false
  | _, nan => false
  | ninf, _ => true
  | _, pinf => true
  | fin a, fin b => decide (a ≤ b)
  | _, _ => false

/-- Conversion `(float)shortResult` of an `unsigned short`: exact. -/
def ofUInt16 (u : Nat) : Float32 := fin (u : ℚ)

/-- The float whose four bytes (little-endian binary32) are `bs`. -/
def ofBytes (bs : List Byte) : Float32 :=
  let bits : Nat := leNat bs % 2 ^ 32
  let sign : Nat := bits / 2 ^ 31
  let e : Nat := (bits / 2 ^ 23) % 256
  let m : Nat := bits % 2 ^ 23
  if e = 255 then
    if m = 0 then (if sign = 0 then pinf else ninf) else nan
  else
    let mag : ℚ := if e = 0 then (m : ℚ) / 2 ^ 149
                   else ((2 ^ 23 + m : Nat) : ℚ) * 2 ^ e / 2 ^ 150
    fin (if sign = 0 then mag else -mag)

end Float32

/-! ## The program -/

def getNSamples (digitiser : Char) : Nat :=
  if digitiser = 'V' then 110
  else if digitiser = 'D' then 1024
  else 0

def isCorrectDigitiser (header : Int) (digitiser : Char) : Bool :=
  if (header = 244 ∧ digitiser = 'V') ∨ (header = 4120 ∧ digitiser = 'D') then true
  else false

/-- What one completed pass through the body of the `while` loop leaves
behind: the values `VDC` took in the sample loop, `minVDC` and `maxVDC` after
it, and whether the zero-crossing warning was printed. -/
structure EventLog where
  samples : List Float32
  minVDC : Float32
  maxVDC : Float32
  warning : Bool
deriving DecidableEq, Repr

/-- Result of a call of `ProcessBinaryFile`: the value returned, the log of
the completed events, and the stream at the point of return. -/
structure Outcome where
  ret : Int
  events : List EventLog
  fileStream : IfStream
deriving DecidableEq, Repr

/-- The loop `for (iHeader ...; iHeader < 6; iHeader++)` with `n` iterations
left. `Except.error fs` is the `return -1`, taken with the stream at `fs`. -/
def headerLoop (digitiser : Char) (nEvents : Int) :
    Nat → Nat → IfStream → Except IfStream IfStream
  | 0, _, fs => .ok fs
  | n + 1, iHeader, fs =>
    let r := fs.read [0, 0, 0, 0]
    let fileHeader := toInt32 r.2
    if iHeader = 0 ∧ nEvents = 1 ∧ isCorrectDigitiser fileHeader digitiser = false then
      .error r.1
    else
      headerLoop digitiser nEvents n (iHeader + 1) r.1

/-- Variables the sample loop works on. -/
structure Pulse where
  fileStream : IfStream
  minVDC : Float32
  maxVDC : Float32
  samples : List Float32
deriving DecidableEq, Repr

/-- The `if (VDC < minVDC) ... else if (VDC > maxVDC) ...` of the sample loop. -/
def updateRange (VDC : Float32) (p : Pulse) (fs : IfStream) : Pulse :=
  if VDC.lt p.minVDC then
    { fileStream := fs, minVDC := VDC, maxVDC := p.maxVDC, samples := p.samples ++ [VDC] }
  else if VDC.gt p.maxVDC then
    { fileStream := fs, minVDC := p.minVDC, maxVDC := VDC, samples := p.samples ++ [VDC] }
  else
    { fileStream := fs, minVDC := p.minVDC, maxVDC := p.maxVDC, samples := p.samples ++ [VDC] }

/-- One iteration of the sample loop. -/
def sampleStep (digitiser : Char) (p : Pulse) : Except IfStream Pulse :=
  if digitiser = 'V' then
    let r := p.fileStream.read [0, 0]
    .ok (updateRange (Float32.ofUInt16 (toUInt16 r.2)) p r.1)
  else if digitiser = 'D' then
    let r := p.fileStream.read [0, 0, 0, 0]
    .ok (updateRange (Float32.ofBytes r.2) p r.1)
  else
    .error p.fileStream

/-- The loop `for (sample ...; sample < getNSamples(digitiser); sample++)`
with `n` iterations left. -/
def sampleLoop (digitiser : Char) : Nat → Pulse → Except IfStream Pulse
  | 0, p => .ok p
  | n + 1, p =>
    match sampleStep digitiser p with
    | .error fs => .error fs
    | .ok p1 => sampleLoop digitiser n p1

/-- Body of the `while` loop, entered with `nEvents` already incremented. -/
def eventBody (digitiser : Char) (nEvents : Int) (fs : IfStream) :
    Except IfStream (IfStream × EventLog) :=
  match headerLoop digitiser nEvents 6 0 fs with
  | .error fs1 => .error fs1
  | .ok fs1 =>
    match sampleLoop digitiser (getNSamples digitiser)
        ⟨fs1, .fin 100000, .fin (-100000), []⟩ with
    | .error fs2 => .error fs2
    | .ok p =>
      .ok (p.fileStream,
           ⟨p.samples, p.minVDC, p.maxVDC,
            p.minVDC.lt (.fin 0) && p.maxVDC.gt (.fin 0)⟩)

/-- The `while` loop and what follows it, with `fuel` bounding the number of
times the loop condition is evaluated. -/
def whileLoop (digitiser : Char) :
    Nat → IfStream → Int → List EventLog → Option Outcome
  | 0, _, _, _ => none
  | fuel + 1, fs, nEvents, log =>
    if fs.is_open && fs.good && !fs.eof then
      match eventBody digitiser (nEvents + 1) fs with
      | .error fs1 => some ⟨-1, log, fs1⟩
      | .ok (fs1, ev) => whileLoop digitiser fuel fs1 (nEvents + 1) (log ++ [ev])
    else
      some ⟨nEvents, log, fs.close⟩

/-- `ProcessBinaryFile(fileName, digitiser)` where `file` is the content of
the file called `fileName`, `none` if it cannot be opened. The fuel, two more
than the file has bytes, is never used up (`ProcessBinaryFile_total`). -/
def ProcessBinaryFile (file : Option (List Byte)) (digitiser : Char) : Option Outcome :=
  let fs := IfStream.ofFile file
  whileLoop digitiser (fs.data.length + 2) fs 0 []

/-! ## Closed form of the run

What a run on an opened file computes, written as functions of the file
content. `ProcessBinaryFile_match` and `ProcessBinaryFile_mismatch` below show
that the program computes exactly this. -/

/-- Bytes a sample read asks for ('V': 2, 'D': 4). -/
def sampleWidth (digitiser : Char) : Nat := if digitiser = 'V' then 2 else 4

/-- Bytes the body of the `while` loop asks the stream for. -/
def recordSize (digitiser : Char) : Nat :=
  6 * 4 + getNSamples digitiser * sampleWidth digitiser

/-- The `n` bytes at offset `q` of the file, with 0 for every byte past its end. -/
def slice (data : List Byte) (q n : Nat) : List Byte :=
  (data.drop q).take n ++ List.replicate (n - ((data.drop q).take n).length) 0

/-- Field 0 of the header of the first record, as the first `read` leaves it
in `fileHeader`. -/
def firstHeader (data : List Byte) : Int := toInt32 (slice data 0 4)

/-- The stream of an opened file after `r` reads that asked for `q` bytes in
total. -/
def streamAt (data : List Byte) (q r : Nat) : IfStream :=
  if q ≤ data.length then ⟨data, q, true, false, false, r⟩
  else ⟨data, data.length, true, true, true, r⟩

/-- Value of `VDC` after the read of a sample that stored the bytes `bs`. -/
def decodeSample (digitiser : Char) (bs : List Byte) : Float32 :=
  if digitiser = 'V' then Float32.ofUInt16 (toUInt16 bs) else Float32.ofBytes bs

/-- The `n` samples of a sample block that starts at offset `q`. -/
def samplesAt (digitiser : Char) (data : List Byte) (q n : Nat) : List Float32 :=
  (List.range n).map fun j =>
    decodeSample digitiser (slice data (q + sampleWidth digitiser * j) (sampleWidth digitiser))

/-- The update of `(minVDC, maxVDC)` by one sample. -/
def stepRange (acc : Float32 × Float32) (VDC : Float32) : Float32 × Float32 :=
  if VDC.lt acc.1 then (VDC, acc.2)
  else if VDC.gt acc.2 then (acc.1, VDC)
  else acc

/-- The pair `(minVDC, maxVDC)` after the sample loop ran over `vs`. -/
def rangeOf (vs : List Float32) : Float32 × Float32 :=
  vs.foldl stepRange (.fin 100000, .fin (-100000))

/-- The log entry of the record that starts at offset `q`. -/
def eventAt (digitiser : Char) (data : List Byte) (q : Nat) : EventLog :=
  let vs := samplesAt digitiser data (q + 24) (getNSamples digitiser)
  ⟨vs, (rangeOf vs).1, (rangeOf vs).2,
   (rangeOf vs).1.lt (.fin 0) && (rangeOf vs).2.gt (.fin 0)⟩

/-- Number of passes through the body of the `while` loop on an opened file
whose first header passes the check. -/
def nPasses (digitiser : Char) (data : List Byte) : Nat :=
  data.length / recordSize digitiser + 1

/-- The log of a run on an opened file whose first header passes the check. -/
def eventsOf (digitiser : Char) (data : List Byte) : List EventLog :=
  (List.range (nPasses digitiser data)).map fun j =>
    eventAt digitiser data (j * recordSize digitiser)

/-- The stream at the end of a run on an opened file whose first header
passes the check. -/
def finalStream (digitiser : Char) (data : List Byte) : IfStream :=
  (streamAt data (nPasses digitiser data * recordSize digitiser)
    (nPasses digitiser data * (6 + getNSamples digitiser))).close

/-! ## Sample files -/

/-- One VME record: header `[244, 0, 0, 0, 0, 0]`, then the given samples,
each as its low and high byte. -/
def vmeRecord (samples : List (Byte × Byte)) : List Byte :=
  [244, 0, 0, 0] ++ List.replicate 20 0 ++ (samples.map fun s => [s.1, s.2]).flatten

/-- A VME file of one complete record, all samples 5. -/
def vmeOne : List Byte := vmeRecord (List.replicate 110 (5, 0))

/-- A VME file of one complete record: sample 5, then 109 samples 3. -/
def vmeFalling : List Byte := vmeRecord ((5, 0) :: List.replicate 109 (3, 0))

/-- A VME file of one complete record and a second record that ends after
its first sample. -/
def vmeTruncated : List Byte := vmeOne ++ vmeRecord [(7, 0)]

/-- A VME file of two complete records. -/
def vmeTwo : List Byte := vmeOne ++ vmeOne

/-- The file `vmeTwo` with other values in header fields 1-5 of both records
and in header field 0 of the second. -/
def vmeTwoAltered : List Byte :=
  [244, 0, 0, 0] ++ List.replicate 20 9 ++ List.drop 24 vmeOne
    ++ ([68, 51, 34, 17] ++ List.replicate 20 255 ++ List.drop 24 vmeOne)

/-- A file whose first header field is 4120, the value of the other digitiser. -/
def desktopMagic : List Byte := [24, 16, 0, 0, 1, 2, 3]

/-- One Desktop record: header `[4120, 0, 0, 0, 0, 0]`, then the given
samples, each as its four bytes. -/
def desktopRecord (samples : List (List Byte)) : List Byte :=
  [24, 16, 0, 0] ++ List.replicate 20 0 ++ samples.flatten

/-- A Desktop file of one complete record: sample 5.0, then 1023 samples -1.0. -/
def desktopCrossing : List Byte :=
  desktopRecord ([0, 0, 160, 64] :: List.replicate 1023 [0, 0, 128, 191])

/-- A Desktop file of one complete record, all 1024 samples 2.5. -/
def desktopFlat : List Byte := desktopRecord (List.replicate 1024 [0, 0, 32, 64])

/-! ## Reads -/

theorem streamAt_zero (data : List Byte) :
    IfStream.ofFile (some data) = streamAt data 0 0 := by
  simp [IfStream.ofFile, streamAt]

theorem slice_length (data : List Byte) (q n : Nat) : (slice data q n).length = n := by
  simp only [slice, List.length_append, List.length_replicate, List.length_take,
    List.length_drop]
  omega

theorem read_streamAt (data : List Byte) (q r n : Nat) (hn : 0 < n) :
    (streamAt data q r).read (List.replicate n 0)
      = (streamAt data (q + n) (r + 1), slice data q n) := by
  unfold streamAt
  by_cases h1 : q ≤ data.length
  · by_cases h2 : q + n ≤ data.length
    · have hl : ((List.drop q data).take n).length = n := by
        simp only [List.length_take, List.length_drop]; omega
      simp [IfStream.read, IfStream.good, h1, h2, slice, hl]
    · have hl : ((List.drop q data).take n).length = data.length - q := by
        simp only [List.length_take, List.length_drop]; omega
      have hne : ¬ (data.length - q = n) := by omega
      simp [IfStream.read, IfStream.good, h1, h2, slice, hl, hne]
  · have h2 : ¬ (q + n ≤ data.length) := by omega
    have hd : List.drop q data = [] := by
      apply List.drop_eq_nil_of_le; omega
    simp [IfStream.read, IfStream.good, h1, h2, slice, hd]

/-! ## The loops on an opened file -/

theorem headerLoop_succ (d : Char) (nEvents : Int) (n iHeader : Nat) (fs : IfStream) :
    headerLoop d nEvents (n + 1) iHeader fs
      = if iHeader = 0 ∧ nEvents = 1 ∧
            isCorrectDigitiser (toInt32 (fs.read [0, 0, 0, 0]).2) d = false then
          .error (fs.read [0, 0, 0, 0]).1
        else headerLoop d nEvents n (iHeader + 1) (fs.read [0, 0, 0, 0]).1 := rfl

theorem headerLoop_tail (d : Char) (nEvents : Int) (data : List Byte) :
    ∀ (n iHeader q r : Nat), iHeader ≠ 0 →
      headerLoop d nEvents n iHeader (streamAt data q r)
        = .ok (streamAt data (q + 4 * n) (r + n))
  | 0, _, q, r, _ => by simp [headerLoop]
  | n + 1, iHeader, q, r, h => by
    have hr := read_streamAt data q r 4 (by omega)
    simp only [List.replicate] at hr
    rw [headerLoop_succ, hr]
    simp only [h, false_and, if_false]
    rw [headerLoop_tail d nEvents data n (iHeader + 1) (q + 4) (r + 1) (by omega)]
    congr 2 <;> omega

theorem headerLoop_ok (d : Char) (nEvents : Int) (data : List Byte) (q r : Nat)
    (h : nEvents ≠ 1 ∨ isCorrectDigitiser (toInt32 (slice data q 4)) d = true) :
    headerLoop d nEvents 6 0 (streamAt data q r) = .ok (streamAt data (q + 24) (r + 6)) := by
  have hr := read_streamAt data q r 4 (by omega)
  simp only [List.replicate] at hr
  have hc : ¬ ((0 : Nat) = 0 ∧ nEvents = 1 ∧
      isCorrectDigitiser (toInt32 (slice data q 4)) d = false) := by
    rintro ⟨_, h1, h2⟩
    rcases h with h | h
    · exact h h1
    · rw [h] at h2; cases h2
  rw [show (6 : Nat) = 5 + 1 from rfl, headerLoop_succ, hr]
  rw [if_neg hc, headerLoop_tail d nEvents data 5 1 (q + 4) (r + 1) (by omega)]

theorem headerLoop_mismatch (d : Char) (data : List Byte) (q r : Nat)
    (h : isCorrectDigitiser (toInt32 (slice data q 4)) d = false) :
    headerLoop d 1 6 0 (streamAt data q r) = .error (streamAt data (q + 4) (r + 1)) := by
  have hr := read_streamAt data q r 4 (by omega)
  simp only [List.replicate] at hr
  rw [show (6 : Nat) = 5 + 1 from rfl, headerLoop_succ, hr]
  simp [h]

theorem sampleStep_streamAt (d : Char) (hd : d = 'V' ∨ d = 'D') (data : List Byte)
    (q r : Nat) (mn mx : Float32) (ss : List Float32) :
    sampleStep d ⟨streamAt data q r, mn, mx, ss⟩
      = .ok (updateRange (decodeSample d (slice data q (sampleWidth d)))
          ⟨streamAt data q r, mn, mx, ss⟩ (streamAt data (q + sampleWidth d) (r + 1))) := by
  rcases hd with rfl | rfl
  · have hr := read_streamAt data q r 2 (by omega)
    simp only [List.replicate] at hr
    simp [sampleStep, hr, decodeSample, sampleWidth]
  · have hr := read_streamAt data q r 4 (by omega)
    simp only [List.replicate] at hr
    simp [sampleStep, hr, decodeSample, sampleWidth]

theorem updateRange_eq (v : Float32) (p : Pulse) (fs : IfStream) :
    updateRange v p fs
      = ⟨fs, (stepRange (p.minVDC, p.maxVDC) v).1, (stepRange (p.minVDC, p.maxVDC) v).2,
         p.samples ++ [v]⟩ := by
  unfold updateRange stepRange
  by_cases h1 : v.lt p.minVDC = true
  · simp [h1]
  · by_cases h2 : v.gt p.maxVDC = true
    · simp [h1, h2]
    · simp [h1, h2]

theorem samplesAt_succ (d : Char) (data : List Byte) (q n : Nat) :
    samplesAt d data q (n + 1)
      = decodeSample d (slice data q (sampleWidth d))
          :: samplesAt d data (q + sampleWidth d) n := by
  simp only [samplesAt, List.range_succ_eq_map, List.map_cons, List.map_map, Nat.mul_zero,
    Nat.add_zero]
  congr 1
  apply List.map_congr_left
  intro j _
  simp only [Function.comp, Nat.succ_eq_add_one, Nat.mul_add, Nat.mul_one]
  congr 2
  omega

theorem samplesAt_length (d : Char) (data : List Byte) (q n : Nat) :
    (samplesAt d data q n).length = n := by
  simp [samplesAt]

theorem sampleLoop_streamAt (d : Char) (hd : d = 'V' ∨ d = 'D') (data : List Byte) :
    ∀ (n q r : Nat) (mn mx : Float32) (ss : List Float32),
      sampleLoop d n ⟨streamAt data q r, mn, mx, ss⟩
        = .ok ⟨streamAt data (q + sampleWidth d * n) (r + n),
            ((samplesAt d data q n).foldl stepRange (mn, mx)).1,
            ((samplesAt d data q n).foldl stepRange (mn, mx)).2,
            ss ++ samplesAt d data q n⟩
  | 0, q, r, mn, mx, ss => by simp [sampleLoop, samplesAt]
  | n + 1, q, r, mn, mx, ss => by
    simp only [sampleLoop]
    rw [sampleStep_streamAt d hd, updateRange_eq]
    simp only []
    rw [sampleLoop_streamAt d hd data n, samplesAt_succ]
    have e1 : q + sampleWidth d + sampleWidth d * n = q + sampleWidth d * (n + 1) := by
      rw [Nat.mul_add, Nat.mul_one]; omega
    have e2 : r + 1 + n = r + (n + 1) := by omega
    simp only [List.foldl_cons, List.append_assoc, List.singleton_append, e1, e2]

theorem eventBody_streamAt (d : Char) (hd : d = 'V' ∨ d = 'D') (nEvents : Int)
    (data : List Byte) (q r : Nat)
    (h : nEvents ≠ 1 ∨ isCorrectDigitiser (toInt32 (slice data q 4)) d = true) :
    eventBody d nEvents (streamAt data q r)
      = .ok (streamAt data (q + recordSize d) (r + (6 + getNSamples d)), eventAt d data q) := by
  simp only [eventBody]
  rw [headerLoop_ok d nEvents data q r h]
  simp only []
  rw [sampleLoop_streamAt d hd data]
  have e1 : q + 24 + sampleWidth d * getNSamples d = q + recordSize d := by
    simp only [recordSize, Nat.mul_comm]; omega
  have e2 : r + 6 + getNSamples d = r + (6 + getNSamples d) := by omega
  simp only [List.nil_append, eventAt, rangeOf, e1, e2]

theorem eventBody_mismatch (d : Char) (data : List Byte) (q r : Nat)
    (h : isCorrectDigitiser (toInt32 (slice data q 4)) d = false) :
    eventBody d 1 (streamAt data q r) = .error (streamAt data (q + 4) (r + 1)) := by
  simp only [eventBody]
  rw [headerLoop_mismatch d data q r h]

theorem recordSize_pos (d : Char) : 0 < recordSize d := by
  simp [recordSize]

theorem streamAt_cond (data : List Byte) (q r : Nat) :
    ((streamAt data q r).is_open && (streamAt data q r).good && !(streamAt data q r).eof)
      = decide (q ≤ data.length) := by
  unfold streamAt
  by_cases h : q ≤ data.length <;> simp [h, IfStream.is_open, IfStream.good, IfStream.eof]

theorem lt_nPasses_mul (d : Char) (data : List Byte) :
    data.length < nPasses d data * recordSize d := by
  have h1 := Nat.div_add_mod data.length (recordSize d)
  have h2 := Nat.mod_lt data.length (recordSize_pos d)
  have h3 : nPasses d data * recordSize d
      = recordSize d * (data.length / recordSize d) + recordSize d := by
    rw [nPasses, Nat.add_mul, Nat.one_mul, Nat.mul_comm]
  omega

theorem whileLoop_succ (d : Char) (fuel : Nat) (fs : IfStream) (nEvents : Int)
    (log : List EventLog) :
    whileLoop d (fuel + 1) fs nEvents log
      = if (fs.is_open && fs.good && !fs.eof) = true then
          match eventBody d (nEvents + 1) fs with
          | .error fs1 => some ⟨-1, log, fs1⟩
          | .ok (fs1, ev) => whileLoop d fuel fs1 (nEvents + 1) (log ++ [ev])
        else some ⟨nEvents, log, fs.close⟩ := rfl

theorem whileLoop_streamAt (d : Char) (hd : d = 'V' ∨ d = 'D') (data : List Byte)
    (hh : isCorrectDigitiser (firstHeader data) d = true) :
    ∀ (k i fuel : Nat) (log : List EventLog), i + k = nPasses d data → k + 1 ≤ fuel →
      whileLoop d fuel (streamAt data (i * recordSize d) (i * (6 + getNSamples d))) (i : Int) log
        = some ⟨(nPasses d data : Nat),
            log ++ (List.range' i k).map (fun j => eventAt d data (j * recordSize d)),
            finalStream d data⟩
  | 0, i, fuel, log, hik, hf => by
    obtain ⟨fuel, rfl⟩ : ∃ f, fuel = f + 1 := ⟨fuel - 1, by omega⟩
    have hi : i = nPasses d data := by omega
    subst hi
    have hlt := lt_nPasses_mul d data
    rw [whileLoop_succ, streamAt_cond]
    have hn : ¬ (nPasses d data * recordSize d ≤ data.length) := by omega
    simp [hn, finalStream]
  | k + 1, i, fuel, log, hik, hf => by
    obtain ⟨fuel, rfl⟩ : ∃ f, fuel = f + 1 := ⟨fuel - 1, by omega⟩
    have hle : i * recordSize d ≤ data.length := by
      apply (Nat.le_div_iff_mul_le (recordSize_pos d)).mp
      simp only [nPasses] at hik
      omega
    have hhd : ((i : Int) + 1 ≠ 1) ∨
        isCorrectDigitiser (toInt32 (slice data (i * recordSize d) 4)) d = true := by
      by_cases hi : i = 0
      · right; subst hi; simpa [firstHeader] using hh
      · left; omega
    rw [whileLoop_succ, streamAt_cond]
    simp only [hle, decide_True, if_true]
    rw [eventBody_streamAt d hd _ data _ _ hhd]
    simp only []
    have e1 : i * recordSize d + recordSize d = (i + 1) * recordSize d := by
      rw [Nat.add_mul, Nat.one_mul]
    have e2 : i * (6 + getNSamples d) + (6 + getNSamples d) = (i + 1) * (6 + getNSamples d) := by
      rw [Nat.add_mul, Nat.one_mul]
    have e3 : (i : Int) + 1 = ((i + 1 : Nat) : Int) := by push_cast; rfl
    rw [e1, e2, e3, whileLoop_streamAt d hd data hh k (i + 1) fuel _ (by omega) (by omega)]
    simp [List.range'_succ]

theorem isCorrectDigitiser_supported (header : Int) (d : Char)
    (h : isCorrectDigitiser header d = true) : d = 'V' ∨ d = 'D' := by
  unfold isCorrectDigitiser at h
  split at h
  · rename_i hc
    rcases hc with hc | hc
    · exact Or.inl hc.2
    · exact Or.inr hc.2
  · cases h

/-- The run on an opened file whose first header passes the check. -/
theorem ProcessBinaryFile_match (data : List Byte) (d : Char)
    (hh : isCorrectDigitiser (firstHeader data) d = true) :
    ProcessBinaryFile (some data) d
      = some ⟨(nPasses d data : Nat), eventsOf d data, finalStream d data⟩ := by
  have hd := isCorrectDigitiser_supported _ _ hh
  have hn : nPasses d data ≤ data.length + 1 := by
    simp only [nPasses]
    have := Nat.div_le_self data.length (recordSize d)
    omega
  have h := whileLoop_streamAt d hd data hh (nPasses d data) 0 (data.length + 2) []
    (by omega) (by omega)
  simp only [Nat.zero_mul, Nat.cast_zero, List.nil_append] at h
  simp only [ProcessBinaryFile, streamAt_zero]
  have hl : (streamAt data 0 0).data.length = data.length := by simp [streamAt]
  rw [hl, h, eventsOf, List.range_eq_range']

/-- The run on an opened file whose first header fails the check. -/
theorem ProcessBinaryFile_mismatch (data : List Byte) (d : Char)
    (hh : isCorrectDigitiser (firstHeader data) d = false) :
    ProcessBinaryFile (some data) d = some ⟨-1, [], streamAt data 4 1⟩ := by
  simp only [ProcessBinaryFile, streamAt_zero]
  rw [whileLoop_succ, streamAt_cond]
  simp only [Nat.zero_le, decide_True, if_true, Int.zero_add]
  rw [eventBody_mismatch d data 0 0 (by simpa [firstHeader] using hh)]

/-- The run on a file that cannot be opened. -/
theorem ProcessBinaryFile_unopened (d : Char) :
    ProcessBinaryFile none d = some ⟨0, [], ⟨[], 0, false, false, true, 0⟩⟩ := by
  simp [ProcessBinaryFile, IfStream.ofFile, whileLoop, IfStream.is_open, IfStream.close]

/-- Every call returns. -/
theorem ProcessBinaryFile_total (file : Option (List Byte)) (d : Char) :
    ∃ o, ProcessBinaryFile file d = some o := by
  cases file with
  | none => exact ⟨_, ProcessBinaryFile_unopened d⟩
  | some data =>
    cases hh : isCorrectDigitiser (firstHeader data) d with
    | true => exact ⟨_, ProcessBinaryFile_match data d hh⟩
    | false => exact ⟨_, ProcessBinaryFile_mismatch data d hh⟩

/-- Every entry of the log is the entry of a record of a supported digitiser. -/
theorem events_of_run (file : Option (List Byte)) (d : Char) (o : Outcome)
    (ho : ProcessBinaryFile file d = some o) (e : EventLog) (he : e ∈ o.events) :
    (d = 'V' ∨ d = 'D') ∧ ∃ data q, file = some data ∧ e = eventAt d data q := by
  cases file with
  | none =>
    rw [ProcessBinaryFile_unopened] at ho
    cases ho
    simp at he
  | some data =>
    cases hh : isCorrectDigitiser (firstHeader data) d with
    | true =>
      rw [ProcessBinaryFile_match data d hh] at ho
      cases ho
      simp only [eventsOf, List.mem_map] at he
      obtain ⟨j, _, rfl⟩ := he
      exact ⟨isCorrectDigitiser_supported _ _ hh, data, _, rfl, rfl⟩
    | false =>
      rw [ProcessBinaryFile_mismatch data d hh] at ho
      cases ho
      simp at he

/-! ## The range of an event -/

namespace Float32

theorem lt_self (a : Float32) : lt a a = false := by
  cases a <;> simp [lt]

theorem lt_of_lt_of_lt {a b c : Float32} (h1 : lt a b = true) (h2 : lt b c = true) :
    lt a c = true := by
  cases a <;> cases b <;> cases c <;> simp_all [lt]
  exact lt_trans h1 h2

theorem le_of_not_lt {a b : Float32} (ha : a ≠ nan) (hb : b ≠ nan) (h : lt b a = false) :
    le a b = true := by
  cases a <;> cases b <;> simp_all [lt, le]

theorem not_lt_of_le {a b : Float32} (h : le a b = true) : lt b a = false := by
  cases a <;> cases b <;> simp_all [lt, le]

theorem ne_nan_of_lt {a b : Float32} (h : lt a b = true) : a ≠ nan := by
  cases a <;> simp_all [lt]

end Float32

theorem fold_fst_mem (vs : List Float32) :
    ∀ acc : Float32 × Float32,
      (vs.foldl stepRange acc).1 = acc.1 ∨ (vs.foldl stepRange acc).1 ∈ vs := by
  induction vs with
  | nil => intro acc; simp
  | cons v vs ih =>
    intro acc
    simp only [List.foldl_cons, List.mem_cons]
    rcases ih (stepRange acc v) with h | h
    · rw [h]
      unfold stepRange
      split
      · right; left; rfl
      · split <;> (left; rfl)
    · right; right; exact h

theorem fold_snd_mem (vs : List Float32) :
    ∀ acc : Float32 × Float32,
      (vs.foldl stepRange acc).2 = acc.2 ∨ (vs.foldl stepRange acc).2 ∈ vs := by
  induction vs with
  | nil => intro acc; simp
  | cons v vs ih =>
    intro acc
    simp only [List.foldl_cons, List.mem_cons]
    rcases ih (stepRange acc v) with h | h
    · rw [h]
      unfold stepRange
      split
      · left; rfl
      · split
        · right; left; rfl
        · left; rfl
    · right; right; exact h

theorem stepRange_fst (acc : Float32 × Float32) (v : Float32) :
    (stepRange acc v).1 = if v.lt acc.1 then v else acc.1 := by
  unfold stepRange
  split
  · rfl
  · split <;> rfl

theorem fold_fst_le (vs : List Float32) :
    ∀ acc : Float32 × Float32,
      (vs.foldl stepRange acc).1 = acc.1 ∨ (vs.foldl stepRange acc).1.lt acc.1 = true := by
  induction vs with
  | nil => intro acc; simp
  | cons v vs ih =>
    intro acc
    simp only [List.foldl_cons]
    have hs := stepRange_fst acc v
    rcases ih (stepRange acc v) with h | h
    · rw [h, hs]
      split
      · right; assumption
      · left; rfl
    · rw [hs] at h
      split at h
      · right; exact Float32.lt_of_lt_of_lt h (by assumption)
      · right; exact h

theorem fold_fst_not_lt (vs : List Float32) (acc : Float32 × Float32) (x : Float32)
    (hx : x.lt acc.1 = false) : x.lt (vs.foldl stepRange acc).1 = false := by
  rcases fold_fst_le vs acc with h | h
  · rw [h]; exact hx
  · cases hc : x.lt (vs.foldl stepRange acc).1 with
    | false => rfl
    | true =>
      have := Float32.lt_of_lt_of_lt hc h
      rw [hx] at this
      cases this

/-- No sample is below `minVDC`. -/
theorem fold_fst_lower (vs : List Float32) :
    ∀ acc : Float32 × Float32, ∀ v ∈ vs, v.lt (vs.foldl stepRange acc).1 = false := by
  induction vs with
  | nil => intro acc v hv; simp at hv
  | cons u vs ih =>
    intro acc v hv
    simp only [List.foldl_cons]
    rcases List.mem_cons.mp hv with rfl | hv
    · apply fold_fst_not_lt
      rw [stepRange_fst]
      split
      · exact Float32.lt_self v
      · simpa using ‹¬ v.lt acc.1 = true›
    · exact ih _ v hv

/-- When the samples are below the initial `minVDC`, `minVDC` ends as one of them. -/
theorem rangeOf_fst_mem (vs : List Float32) (hne : vs ≠ [])
    (hlt : ∀ s ∈ vs, s.lt (.fin 100000) = true) : (rangeOf vs).1 ∈ vs := by
  rcases fold_fst_mem vs (.fin 100000, .fin (-100000)) with h | h
  · exfalso
    obtain ⟨v, hv⟩ := List.exists_mem_of_ne_nil vs hne
    have h1 := fold_fst_lower vs (.fin 100000, .fin (-100000)) v hv
    rw [h] at h1
    rw [hlt v hv] at h1
    cases h1
  · exact h

/-! ## Bytes that the run does not look at -/

theorem recordSize_V : recordSize 'V' = 244 := by decide

theorem recordSize_D : recordSize 'D' = 4120 := by decide

theorem slice_congr (data data' : List Byte) (q n : Nat)
    (h : ∀ i, i < n → data'[q + i]? = data[q + i]?) :
    slice data' q n = slice data q n := by
  have ht : (data'.drop q).take n = (data.drop q).take n := by
    apply List.ext_getElem?
    intro i
    simp only [List.getElem?_take, List.getElem?_drop]
    split
    · exact h i (by assumption)
    · rfl
  simp only [slice, ht]

/-- The log entry of the record at offset `q` depends on the bytes of its
sample block only. -/
theorem eventAt_congr (d : Char) (hd : d = 'V' ∨ d = 'D') (data data' : List Byte) (q : Nat)
    (h : ∀ i, 24 ≤ i ∧ i < recordSize d → data'[q + i]? = data[q + i]?) :
    eventAt d data' q = eventAt d data q := by
  have hs : samplesAt d data' (q + 24) (getNSamples d)
      = samplesAt d data (q + 24) (getNSamples d) := by
    simp only [samplesAt]
    apply List.map_congr_left
    intro j hj
    rw [List.mem_range] at hj
    rw [slice_congr]
    intro i hi
    have := h (24 + sampleWidth d * j + i) (by
      rcases hd with rfl | rfl
      · simp only [sampleWidth, getNSamples, recordSize_V] at *
        simp at hi hj ⊢
        omega
      · simp only [sampleWidth, getNSamples, recordSize_D] at *
        simp at hi hj ⊢
        omega)
    rw [show q + 24 + sampleWidth d * j + i = q + (24 + sampleWidth d * j + i) by omega]
    exact this
  simp only [eventAt, hs]

/-- Two files of two 244-byte records with the same sample blocks and the
same first header field agree on the first 4 bytes and outside the headers. -/
theorem altered_headers_agree (A A' B B' S : List Byte)
    (hA : A.length = 24) (hA' : A'.length = 24) (hB : B.length = 24) (hB' : B'.length = 24)
    (hS : S.length = 220) (h4 : A'.take 4 = A.take 4) :
    ∀ o, o < (A ++ S ++ (B ++ S)).length → (o < 4 ∨ 24 ≤ o % 244) →
      (A' ++ S ++ (B' ++ S))[o]? = (A ++ S ++ (B ++ S))[o]? := by
  intro o ho h
  simp only [List.length_append, hA, hB, hS] at ho
  simp only [List.getElem?_append, List.length_append, hA, hA', hB, hB', hS]
  rcases h with h | h
  · have e : A'[o]? = A[o]? := by
      have e1 := List.getElem?_take_of_lt (l := A') h
      have e2 := List.getElem?_take_of_lt (l := A) h
      rw [← e1, ← e2, h4]
    simp only [show o < 24 + 220 by omega, show o < 24 by omega, if_true, e]
  · by_cases hlt : o < 244
    · simp only [show o < 24 + 220 by omega, show ¬ o < 24 by omega, if_true, if_false]
    · simp only [show ¬ o < 24 + 220 by omega, show ¬ o - (24 + 220) < 24 by omega, if_false]

theorem vmeTwoAltered_agrees :
    ∀ o, o < vmeTwo.length → (o < 4 ∨ 24 ≤ o % recordSize 'V') →
      vmeTwoAltered[o]? = vmeTwo[o]? := by
  have h := altered_headers_agree (List.take 24 vmeOne) ([244, 0, 0, 0] ++ List.replicate 20 9)
    (List.take 24 vmeOne) ([68, 51, 34, 17] ++ List.replicate 20 255) (List.drop 24 vmeOne)
    (by decide) (by decide) (by decide) (by decide) (by decide) (by decide)
  rw [List.take_append_drop] at h
  exact h

/-- A VME sample is the value of an `unsigned short`. -/
theorem decodeSample_V (bs : List Byte) :
    ∃ u : Nat, u ≤ 65535 ∧ decodeSample 'V' bs = .fin (u : ℚ) := by
  refine ⟨toUInt16 bs, ?_, ?_⟩
  · have := Nat.mod_lt (leNat bs) (show 0 < 2 ^ 16 by decide)
    simp only [toUInt16]
    omega
  · simp [decodeSample, Float32.ofUInt16]

theorem samples_V (data : List Byte) (q : Nat) (s : Float32)
    (hs : s ∈ (eventAt 'V' data q).samples) : ∃ u : Nat, u ≤ 65535 ∧ s = .fin (u : ℚ) := by
  simp only [eventAt, samplesAt, List.mem_map] at hs
  obtain ⟨j, _, rfl⟩ := hs
  exact decodeSample_V _

theorem eventAt_samples_ne_nil (d : Char) (hd : d = 'V' ∨ d = 'D') (data : List Byte)
    (q : Nat) : (eventAt d data q).samples ≠ [] := by
  intro h
  have hl := congrArg List.length h
  simp only [eventAt, samplesAt_length, List.length_nil] at hl
  rcases hd with rfl | rfl <;> simp [getNSamples] at hl

/-! ## The claims -/

/-- C1: `getNSamples` is 110 for 'V', 1024 for 'D' and 0 for any other
character; every call of `ProcessBinaryFile` returns, and every pass through
its sample loop makes exactly `getNSamples digitiser` sample reads (110 for
'V', 1024 for 'D'), which with the 6 header reads makes up all reads of a run
that does not end in the error return. -/
theorem getNSamples_sample_reads (file : Option (List Byte)) (d : Char) :
    getNSamples 'V' = 110 ∧ getNSamples 'D' = 1024 ∧
    (d ≠ 'V' → d ≠ 'D' → getNSamples d = 0) ∧
    ∃ o, ProcessBinaryFile file d = some o ∧
      (∀ e ∈ o.events, e.samples.length = getNSamples d) ∧
      (o.ret ≠ -1 → o.fileStream.reads = o.events.length * (6 + getNSamples d)) := by
  refine ⟨rfl, rfl, ?_, ?_⟩
  · intro h1 h2
    simp [getNSamples, h1, h2]
  · obtain ⟨o, ho⟩ := ProcessBinaryFile_total file d
    refine ⟨o, ho, ?_, ?_⟩
    · intro e he
      obtain ⟨_, data, q, _, rfl⟩ := events_of_run file d o ho e he
      simp [eventAt, samplesAt_length]
    · intro hret
      cases file with
      | none =>
        rw [ProcessBinaryFile_unopened] at ho
        cases ho
        simp
      | some data =>
        cases hh : isCorrectDigitiser (firstHeader data) d with
        | true =>
          rw [ProcessBinaryFile_match data d hh] at ho
          cases ho
          simp only [finalStream, IfStream.close, streamAt, eventsOf, List.length_map,
            List.length_range]
          split <;> rfl
        | false =>
          rw [ProcessBinaryFile_mismatch data d hh] at ho
          cases ho
          simp at hret

/-- C2: `isCorrectDigitiser header digitiser` is true exactly when
`header = 244` and the digitiser is 'V', or `header = 4120` and the digitiser
is 'D'; 4120 is rejected for 'V' and 244 for 'D'. -/
theorem isCorrectDigitiser_iff (header : Int) (d : Char) :
    (isCorrectDigitiser header d = true ↔
      (header = 244 ∧ d = 'V') ∨ (header = 4120 ∧ d = 'D')) ∧
    isCorrectDigitiser 4120 'V' = false ∧ isCorrectDigitiser 244 'D' = false := by
  refine ⟨?_, by decide, by decide⟩
  unfold isCorrectDigitiser
  split <;> simp_all

/-- C3: for digitiser 'V' or 'D' and an opened file whose first header field
(bytes the file lacks read as 0) is not the magic of the digitiser,
`ProcessBinaryFile` returns -1 after the first read: no event is logged, one
read was made, and the cursor is at most at offset 4, before any sample. -/
theorem wrong_magic_returns_error (d : Char) (data : List Byte)
    (_ : d = 'V' ∨ d = 'D')
    (hV : d = 'V' → firstHeader data ≠ 244)
    (hD : d = 'D' → firstHeader data ≠ 4120) :
    ∃ o, ProcessBinaryFile (some data) d = some o ∧ o.ret = -1 ∧ o.events = [] ∧
      o.fileStream.reads = 1 ∧ o.fileStream.pos ≤ 4 := by
  have hh : isCorrectDigitiser (firstHeader data) d = false := by
    cases hc : isCorrectDigitiser (firstHeader data) d with
    | false => rfl
    | true =>
      exfalso
      unfold isCorrectDigitiser at hc
      split at hc
      · rename_i h
        rcases h with ⟨h1, h2⟩ | ⟨h1, h2⟩
        · exact hV h2 h1
        · exact hD h2 h1
      · cases hc
  refine ⟨_, ProcessBinaryFile_mismatch data d hh, rfl, rfl, ?_, ?_⟩
  · simp only [streamAt]; split <;> rfl
  · simp only [streamAt]; split
    · exact Nat.le_refl 4
    · simp only []; omega

theorem wrong_magic_returns_error_witness :
    firstHeader desktopMagic = 4120 ∧
    ∃ o, ProcessBinaryFile (some desktopMagic) 'V' = some o ∧ o.ret = -1 ∧ o.events = [] ∧
      o.fileStream.reads = 1 ∧ o.fileStream.pos ≤ 4 :=
  ⟨by decide,
   wrong_magic_returns_error 'V' desktopMagic (Or.inl rfl)
    (fun _ => by decide) (fun h => absurd h (by decide))⟩

/-- C4 (as the code behaves): on the file `vmeOne`, one complete VME record
with the right first header field, `ProcessBinaryFile` returns 2, not 1: the
`while` loop is entered once more after the last record, because `eofbit` is
only set by a read that comes up short. -/
theorem one_record_counts_two :
    vmeOne.length = recordSize 'V' ∧ firstHeader vmeOne = 244 ∧
    (ProcessBinaryFile (some vmeOne) 'V').map (fun o => o.ret) = some 2 := by
  refine ⟨by decide, by decide, by decide⟩

/-- C5 (as the code behaves): on an opened file of zero bytes
`ProcessBinaryFile` returns -1 for 'V' and for 'D': the loop is entered, the
first read stores nothing, and `fileHeader = 0` fails the check. -/
theorem empty_file_returns_error :
    (ProcessBinaryFile (some []) 'V').map (fun o => o.ret) = some (-1) ∧
    (ProcessBinaryFile (some []) 'D').map (fun o => o.ret) = some (-1) := by
  constructor <;> decide

/-- C6, the claim fails: for `vmeTruncated`, a complete VME record followed
by a record that ends inside its sample block, `ProcessBinaryFile` returns 2,
the value it returns for the complete record alone. -/
theorem truncation_not_signalled_example :
    vmeTruncated = vmeOne ++ vmeRecord [(7, 0)] ∧
    (ProcessBinaryFile (some vmeTruncated) 'V').map (fun o => o.ret) = some 2 ∧
    (ProcessBinaryFile (some vmeOne) 'V').map (fun o => o.ret) = some 2 := by
  refine ⟨rfl, by decide, by decide⟩

/-- C6, amended: for digitiser 'V' or 'D', a complete record `first` with the
right first header field, and a second record `partialRec` that ends inside
its sample block, `ProcessBinaryFile` returns on `first ++ partialRec` what it
returns on `first` alone, and that is not the error value -1. -/
theorem truncation_not_signalled (d : Char) (first partialRec : List Byte)
    (hh : isCorrectDigitiser (firstHeader first) d = true)
    (hfirst : first.length = recordSize d)
    (h24 : 24 ≤ partialRec.length) (hpart : partialRec.length < recordSize d) :
    ∃ o o', ProcessBinaryFile (some (first ++ partialRec)) d = some o ∧
      ProcessBinaryFile (some first) d = some o' ∧ o.ret = o'.ret ∧ o.ret ≠ -1 := by
  have hpos := recordSize_pos d
  have hfh : firstHeader (first ++ partialRec) = firstHeader first := by
    have h4 : 4 ≤ first.length := by
      rw [hfirst]; simp only [recordSize]; omega
    simp only [firstHeader, slice, List.drop_zero]
    rw [List.take_append_of_le_length h4]
  have hh' : isCorrectDigitiser (firstHeader (first ++ partialRec)) d = true := by
    rw [hfh]; exact hh
  have hn1 : nPasses d (first ++ partialRec) = 2 := by
    simp only [nPasses, List.length_append, hfirst]
    have : (recordSize d + partialRec.length) / recordSize d = 1 := by
      apply Nat.div_eq_of_lt_le <;> omega
    omega
  have hn2 : nPasses d first = 2 := by
    simp only [nPasses, hfirst, Nat.div_self hpos]
  refine ⟨_, _, ProcessBinaryFile_match _ d hh', ProcessBinaryFile_match _ d hh, ?_, ?_⟩
  · simp only [hn1, hn2]
  · simp only [hn1]; decide

theorem truncation_not_signalled_witness :
    ∃ o o', ProcessBinaryFile (some (vmeOne ++ vmeRecord [(7, 0)])) 'V' = some o ∧
      ProcessBinaryFile (some vmeOne) 'V' = some o' ∧ o.ret = o'.ret ∧ o.ret ≠ -1 :=
  truncation_not_signalled 'V' vmeOne (vmeRecord [(7, 0)])
    (by decide) (by decide) (by decide) (by decide)

/-- C7: for an opened file whose first header field passes the check,
`ProcessBinaryFile` does not return -1, and the value it returns and its whole
event log (samples, `minVDC`, `maxVDC` and zero-crossing warning of every
event) stay the same when the file is replaced by one of the same length that
agrees with it on the first 4 bytes and on every byte outside the 24-byte
headers: header fields 1-5, and field 0 of every record but the first, are
read and not looked at. -/
theorem header_fields_not_validated (d : Char) (data data' : List Byte)
    (hh : isCorrectDigitiser (firstHeader data) d = true)
    (hlen : data'.length = data.length)
    (hsame : ∀ o, o < data.length → (o < 4 ∨ 24 ≤ o % recordSize d) →
      data'[o]? = data[o]?) :
    ∃ o o', ProcessBinaryFile (some data) d = some o ∧
      ProcessBinaryFile (some data') d = some o' ∧
      o.ret ≠ -1 ∧ o'.ret = o.ret ∧ o'.events = o.events := by
  have hall : ∀ o, (o < 4 ∨ 24 ≤ o % recordSize d) → data'[o]? = data[o]? := by
    intro o ho
    by_cases hlt : o < data.length
    · exact hsame o hlt ho
    · rw [List.getElem?_eq_none (by omega), List.getElem?_eq_none (by omega)]
  have hfh : firstHeader data' = firstHeader data := by
    simp only [firstHeader]
    rw [slice_congr data data' 0 4 (fun i hi => hall _ (Or.inl (by omega)))]
  have hh' : isCorrectDigitiser (firstHeader data') d = true := by rw [hfh]; exact hh
  have hd := isCorrectDigitiser_supported _ _ hh
  have hn : nPasses d data' = nPasses d data := by simp only [nPasses, hlen]
  refine ⟨_, _, ProcessBinaryFile_match data d hh, ProcessBinaryFile_match data' d hh',
    ?_, ?_, ?_⟩
  · show ((nPasses d data : Nat) : Int) ≠ -1
    omega
  · simp only [hn]
  · simp only [eventsOf, hn]
    apply List.map_congr_left
    intro j _
    rw [eventAt_congr d hd data data' (j * recordSize d)]
    intro i hi
    apply hall
    right
    rcases hd with rfl | rfl
    · rw [recordSize_V] at hi ⊢
      omega
    · rw [recordSize_D] at hi ⊢
      omega

theorem header_fields_not_validated_witness :
    vmeTwoAltered ≠ vmeTwo ∧
    ∃ o o', ProcessBinaryFile (some vmeTwo) 'V' = some o ∧
      ProcessBinaryFile (some vmeTwoAltered) 'V' = some o' ∧
      o.ret ≠ -1 ∧ o'.ret = o.ret ∧ o'.events = o.events :=
  ⟨by decide,
   header_fields_not_validated 'V' vmeTwo vmeTwoAltered (by decide) (by decide)
    vmeTwoAltered_agrees⟩

/-- C8: every call returns, and for every event of the log whose samples are
all below the initial value 100000 of `minVDC`, `minVDC` ends as the minimum
of the samples: it is one of them and none is below it. For digitiser 'V'
every sample is below 100000. -/
theorem minVDC_is_minimum (file : Option (List Byte)) (d : Char) :
    (∃ o, ProcessBinaryFile file d = some o) ∧
    ∀ o e, ProcessBinaryFile file d = some o → e ∈ o.events →
      ((∀ s ∈ e.samples, s.lt (.fin 100000) = true) →
        e.minVDC ∈ e.samples ∧ ∀ s ∈ e.samples, e.minVDC.le s = true) ∧
      (d = 'V' → ∀ s ∈ e.samples, s.lt (.fin 100000) = true) := by
  refine ⟨ProcessBinaryFile_total file d, ?_⟩
  intro o e ho he
  obtain ⟨hd, data, q, _, rfl⟩ := events_of_run file d o ho e he
  constructor
  · intro hlt
    have hmem : (eventAt d data q).minVDC ∈ (eventAt d data q).samples :=
      rangeOf_fst_mem _ (eventAt_samples_ne_nil d hd data q) hlt
    refine ⟨hmem, ?_⟩
    intro s hs
    apply Float32.le_of_not_lt
    · exact Float32.ne_nan_of_lt (hlt _ hmem)
    · exact Float32.ne_nan_of_lt (hlt _ hs)
    · exact fold_fst_lower _ _ s hs
  · rintro rfl s hs
    obtain ⟨u, hu, rfl⟩ := samples_V data q s hs
    simp only [Float32.lt, decide_eq_true_eq]
    have : (u : ℚ) ≤ 65535 := by exact_mod_cast hu
    linarith

theorem minVDC_is_minimum_witness :
    ProcessBinaryFile (some vmeFalling) 'V'
      = some ⟨(nPasses 'V' vmeFalling : Nat), eventsOf 'V' vmeFalling,
          finalStream 'V' vmeFalling⟩ ∧
    eventAt 'V' vmeFalling 0 ∈ eventsOf 'V' vmeFalling ∧
    (∀ s ∈ (eventAt 'V' vmeFalling 0).samples, s.lt (.fin 100000) = true) ∧
    (eventAt 'V' vmeFalling 0).minVDC = .fin 3 ∧
    (eventAt 'V' vmeFalling 0).minVDC ∈ (eventAt 'V' vmeFalling 0).samples ∧
    ∀ s ∈ (eventAt 'V' vmeFalling 0).samples, (eventAt 'V' vmeFalling 0).minVDC.le s = true :=
  ⟨ProcessBinaryFile_match vmeFalling 'V' (by decide),
   List.mem_map.mpr ⟨0, by decide, rfl⟩, by decide, by decide,
   ((minVDC_is_minimum (some vmeFalling) 'V').2 _ (eventAt 'V' vmeFalling 0)
      (ProcessBinaryFile_match vmeFalling 'V' (by decide))
      (List.mem_map.mpr ⟨0, by decide, rfl⟩)).1 (by decide)⟩

/-- C9 (as the code behaves): on the file `vmeFalling`, whose record has the
samples 5, 3, ..., 3, the event ends with `maxVDC = 3` although its largest
sample is 5: the sample that lowers `minVDC` is never compared with `maxVDC`.
The second entry of the log is the pass made after the last record. -/
theorem maxVDC_misses_first_sample :
    (ProcessBinaryFile (some vmeFalling) 'V').map
        (fun o => o.events.map (fun e => (e.samples, e.minVDC, e.maxVDC)))
      = some [(.fin 5 :: List.replicate 109 (.fin 3), .fin 3, .fin 3),
              (List.replicate 110 (.fin 0), .fin 0, .fin 0)] := by
  decide

/-- C10: every call returns, and for every event of the log whose samples
are all `>= 0`, or all `<= 0`, the condition `minVDC < 0 && maxVDC > 0` is
false at the end of the event and no zero-crossing warning is printed. -/
theorem no_warning_one_sided (file : Option (List Byte)) (d : Char) :
    (∃ o, ProcessBinaryFile file d = some o) ∧
    ∀ o e, ProcessBinaryFile file d = some o → e ∈ o.events →
      ((∀ s ∈ e.samples, Float32.le (.fin 0) s = true) ∨
        (∀ s ∈ e.samples, Float32.le s (.fin 0) = true)) →
      (e.minVDC.lt (.fin 0) && e.maxVDC.gt (.fin 0)) = false ∧ e.warning = false := by
  refine ⟨ProcessBinaryFile_total file d, ?_⟩
  intro o e ho he hside
  obtain ⟨_, data, q, _, rfl⟩ := events_of_run file d o ho e he
  have key : ((eventAt d data q).minVDC.lt (.fin 0)
      && (eventAt d data q).maxVDC.gt (.fin 0)) = false := by
    rcases hside with h | h
    · have hmin : (eventAt d data q).minVDC.lt (.fin 0) = false := by
        rcases fold_fst_mem (eventAt d data q).samples (.fin 100000, .fin (-100000))
          with h1 | h1
        · have h2 : (eventAt d data q).minVDC = .fin 100000 := h1
          rw [h2]
          simp [Float32.lt]
        · exact Float32.not_lt_of_le (h _ h1)
      rw [hmin, Bool.false_and]
    · have hmax : (eventAt d data q).maxVDC.gt (.fin 0) = false := by
        rcases fold_snd_mem (eventAt d data q).samples (.fin 100000, .fin (-100000))
          with h1 | h1
        · have h2 : (eventAt d data q).maxVDC = .fin (-100000) := h1
          rw [h2]
          simp [Float32.lt, Float32.gt]
        · exact Float32.not_lt_of_le (h _ h1)
      rw [hmax, Bool.and_false]
  exact ⟨key, key⟩

theorem no_warning_one_sided_witness :
    ProcessBinaryFile (some vmeOne) 'V'
      = some ⟨(nPasses 'V' vmeOne : Nat), eventsOf 'V' vmeOne, finalStream 'V' vmeOne⟩ ∧
    eventAt 'V' vmeOne 0 ∈ eventsOf 'V' vmeOne ∧
    (∀ s ∈ (eventAt 'V' vmeOne 0).samples, Float32.le (.fin 0) s = true) ∧
    ((eventAt 'V' vmeOne 0).minVDC.lt (.fin 0)
        && (eventAt 'V' vmeOne 0).maxVDC.gt (.fin 0)) = false ∧
    (eventAt 'V' vmeOne 0).warning = false :=
  ⟨ProcessBinaryFile_match vmeOne 'V' (by decide),
   List.mem_map.mpr ⟨0, by decide, rfl⟩, by decide,
   (no_warning_one_sided (some vmeOne) 'V').2 _ (eventAt 'V' vmeOne 0)
      (ProcessBinaryFile_match vmeOne 'V' (by decide))
      (List.mem_map.mpr ⟨0, by decide, rfl⟩) (Or.inl (by decide))⟩

/-! ## Records given by their samples -/

theorem slice_block (pre blk post : List Byte) :
    slice (pre ++ blk ++ post) pre.length blk.length = blk := by
  simp only [slice, List.append_assoc, List.drop_left, List.take_left, Nat.sub_self,
    List.replicate_zero, List.append_nil]

theorem samplesAt_blocks (d : Char) (blocks : List (List Byte)) :
    ∀ (pre post : List Byte), (∀ b ∈ blocks, b.length = sampleWidth d) →
      samplesAt d (pre ++ blocks.flatten ++ post) pre.length blocks.length
        = blocks.map (decodeSample d) := by
  induction blocks with
  | nil => intro pre post _; simp [samplesAt]
  | cons b bs ih =>
    intro pre post hw
    have hb : b.length = sampleWidth d := hw b (List.mem_cons_self _ _)
    rw [List.length_cons, samplesAt_succ, List.map_cons]
    have e1 : pre ++ (b :: bs).flatten ++ post = pre ++ b ++ (bs.flatten ++ post) := by
      simp [List.append_assoc]
    have e2 : pre ++ (b :: bs).flatten ++ post = (pre ++ b) ++ bs.flatten ++ post := by
      simp [List.append_assoc]
    congr 1
    · rw [e1, ← hb, slice_block]
    · rw [e2, ← hb, ← List.length_append]
      exact ih (pre ++ b) post (fun c hc => hw c (List.mem_cons_of_mem _ hc))

theorem stepRange_stepRange (acc : Float32 × Float32) (v : Float32) :
    stepRange (stepRange (stepRange acc v) v) v = stepRange (stepRange acc v) v := by
  unfold stepRange
  have := Float32.lt_self v
  by_cases h1 : v.lt acc.1 = true <;> by_cases h2 : v.gt acc.2 = true <;>
    simp_all [Float32.gt]

/-- From the third on, repetitions of a sample leave the range as it is. -/
theorem fold_replicate (v : Float32) :
    ∀ (n : Nat) (acc : Float32 × Float32),
      (List.replicate (n + 2) v).foldl stepRange acc = stepRange (stepRange acc v) v
  | 0, _ => rfl
  | n + 1, acc => by
    rw [List.replicate_succ, List.foldl_cons, fold_replicate v n, stepRange_stepRange]

theorem decodeSample_D_five : decodeSample 'D' [0, 0, 160, 64] = .fin 5 := by
  have h : leNat [0, 0, 160, 64] = 1084227584 := by decide
  have hc : ¬ ('D' = 'V') := by decide
  simp only [decodeSample, Float32.ofBytes, h, hc, if_false]
  norm_num

theorem decodeSample_D_minus_one : decodeSample 'D' [0, 0, 128, 191] = .fin (-1) := by
  have h : leNat [0, 0, 128, 191] = 3212836864 := by decide
  have hc : ¬ ('D' = 'V') := by decide
  simp only [decodeSample, Float32.ofBytes, h, hc, if_false]
  norm_num

theorem decodeSample_D_five_halves : decodeSample 'D' [0, 0, 32, 64] = .fin (5 / 2) := by
  have h : leNat [0, 0, 32, 64] = 1075838976 := by decide
  have hc : ¬ ('D' = 'V') := by decide
  simp only [decodeSample, Float32.ofBytes, h, hc, if_false]
  norm_num

theorem desktopRecord_length (bs : List (List Byte)) (hw : ∀ b ∈ bs, b.length = 4) :
    (desktopRecord bs).length = 24 + 4 * bs.length := by
  have hs : ∀ l : List (List Byte), (∀ b ∈ l, b.length = 4) → l.flatten.length = 4 * l.length := by
    intro l
    induction l with
    | nil => intro _; rfl
    | cons b l ih =>
      intro h
      rw [List.flatten_cons, List.length_append, h b (List.mem_cons_self _ _),
        ih (fun c hc => h c (List.mem_cons_of_mem _ hc)), List.length_cons]
      omega
  simp only [desktopRecord, List.length_append, List.length_cons, List.length_nil,
    List.length_replicate, hs bs hw]

theorem firstHeader_desktopRecord (bs : List (List Byte)) :
    isCorrectDigitiser (firstHeader (desktopRecord bs)) 'D' = true := by
  have h : slice (desktopRecord bs) 0 4 = [24, 16, 0, 0] := by
    simp [desktopRecord, slice]
  rw [firstHeader, h]
  decide

theorem eventAt_desktopRecord (bs : List (List Byte)) (hw : ∀ b ∈ bs, b.length = 4)
    (hn : bs.length = 1024) :
    (eventAt 'D' (desktopRecord bs) 0).samples = bs.map (decodeSample 'D') := by
  have h := samplesAt_blocks 'D' bs ([24, 16, 0, 0] ++ List.replicate 20 0) [] hw
  rw [List.append_nil, hn] at h
  exact h

/-- The first entry of the log of a run whose first header passes the check
is the entry of the record at offset 0. -/
theorem eventAt_zero_mem (d : Char) (data : List Byte) :
    eventAt d data 0 ∈ eventsOf d data := by
  simp only [eventsOf, List.mem_map, List.mem_range]
  exact ⟨0, Nat.succ_pos _, by rw [Nat.zero_mul]⟩

theorem eventsOf_head (d : Char) (data : List Byte) :
    (eventsOf d data).head? = some (eventAt d data 0) := by
  simp only [eventsOf, nPasses, List.range_succ_eq_map, List.map_cons, List.head?_cons,
    Nat.zero_mul]

theorem eventAt_minVDC (d : Char) (data : List Byte) (q : Nat) :
    (eventAt d data q).minVDC = (rangeOf (eventAt d data q).samples).1 := rfl

theorem eventAt_maxVDC (d : Char) (data : List Byte) (q : Nat) :
    (eventAt d data q).maxVDC = (rangeOf (eventAt d data q).samples).2 := rfl

theorem eventAt_warning (d : Char) (data : List Byte) (q : Nat) :
    (eventAt d data q).warning
      = ((eventAt d data q).minVDC.lt (.fin 0) && (eventAt d data q).maxVDC.gt (.fin 0)) := rfl

theorem desktopCrossing_blocks :
    (∀ b ∈ ([0, 0, 160, 64] :: List.replicate 1023 [0, 0, 128, 191] : List (List Byte)),
      b.length = 4) ∧
    ([0, 0, 160, 64] :: List.replicate 1023 [0, 0, 128, 191] : List (List Byte)).length
      = 1024 := by
  constructor
  · intro b hb
    rcases List.mem_cons.mp hb with rfl | hb
    · rfl
    · rw [List.eq_of_mem_replicate hb]; rfl
  · rw [List.length_cons, List.length_replicate]

theorem desktopFlat_blocks :
    (∀ b ∈ (List.replicate 1024 [0, 0, 32, 64] : List (List Byte)), b.length = 4) ∧
    (List.replicate 1024 [0, 0, 32, 64] : List (List Byte)).length = 1024 := by
  constructor
  · intro b hb
    rw [List.eq_of_mem_replicate hb]; rfl
  · rw [List.length_replicate]

theorem desktopFlat_samples :
    (eventAt 'D' desktopFlat 0).samples = List.replicate 1024 (.fin (5 / 2)) := by
  rw [desktopFlat, eventAt_desktopRecord _ desktopFlat_blocks.1 desktopFlat_blocks.2,
    List.map_replicate, decodeSample_D_five_halves]

/-- C11 (as the code behaves): on the file `desktopCrossing`, one complete
Desktop record with the samples 5, -1, ..., -1, the event ends with
`minVDC = maxVDC = -1` and no zero-crossing warning, although it holds a
sample above 0 and samples below 0: the sample 5 lowers `minVDC` from its
initial value and is never compared with `maxVDC`. -/
theorem zero_crossing_missed :
    desktopCrossing.length = recordSize 'D' ∧
    isCorrectDigitiser (firstHeader desktopCrossing) 'D' = true ∧
    ∃ o e, ProcessBinaryFile (some desktopCrossing) 'D' = some o ∧
      o.events.head? = some e ∧
      e.samples = .fin 5 :: List.replicate 1023 (.fin (-1)) ∧
      e.minVDC = .fin (-1) ∧ e.maxVDC = .fin (-1) ∧
      (e.minVDC.lt (.fin 0) && e.maxVDC.gt (.fin 0)) = false ∧ e.warning = false := by
  have hs : (eventAt 'D' desktopCrossing 0).samples
      = .fin 5 :: List.replicate 1023 (.fin (-1)) := by
    rw [desktopCrossing,
      eventAt_desktopRecord _ desktopCrossing_blocks.1 desktopCrossing_blocks.2,
      List.map_cons, List.map_replicate, decodeSample_D_five, decodeSample_D_minus_one]
  have hr : rangeOf (.fin 5 :: List.replicate 1023 (.fin (-1))) = (.fin (-1), .fin (-1)) := by
    rw [rangeOf, List.foldl_cons, show (1023 : Nat) = 1021 + 2 from rfl, fold_replicate]
    simp only [stepRange, Float32.lt, Float32.gt]
    norm_num
  have hmin : (eventAt 'D' desktopCrossing 0).minVDC = .fin (-1) := by
    rw [eventAt_minVDC, hs, hr]
  have hmax : (eventAt 'D' desktopCrossing 0).maxVDC = .fin (-1) := by
    rw [eventAt_maxVDC, hs, hr]
  have hc : ((eventAt 'D' desktopCrossing 0).minVDC.lt (.fin 0)
      && (eventAt 'D' desktopCrossing 0).maxVDC.gt (.fin 0)) = false := by
    rw [hmin, hmax]
    simp [Float32.lt, Float32.gt]
  have hw : (eventAt 'D' desktopCrossing 0).warning = false := by
    rw [eventAt_warning, hc]
  have hh : isCorrectDigitiser (firstHeader desktopCrossing) 'D' = true := by
    rw [desktopCrossing]
    exact firstHeader_desktopRecord _
  refine ⟨?_, hh, _, eventAt 'D' desktopCrossing 0,
    ProcessBinaryFile_match desktopCrossing 'D' hh, ?_, hs, hmin, hmax, hc, hw⟩
  · rw [desktopCrossing, desktopRecord_length _ desktopCrossing_blocks.1,
      desktopCrossing_blocks.2, recordSize_D]
  · simp only [eventsOf_head]

/-- C12: every call returns, and every event of the log has at least two
samples; when they all equal one value `c` with `-100000 < c < 100000`, the
event ends with `minVDC = maxVDC = c`, the zero-crossing condition is false
and no warning is printed. -/
theorem constant_event (file : Option (List Byte)) (d : Char) :
    (∃ o, ProcessBinaryFile file d = some o) ∧
    ∀ o e (c : ℚ), ProcessBinaryFile file d = some o → e ∈ o.events →
      -100000 < c → c < 100000 → (∀ s ∈ e.samples, s = .fin c) →
      2 ≤ e.samples.length ∧ e.minVDC = .fin c ∧ e.maxVDC = .fin c ∧
      (e.minVDC.lt (.fin 0) && e.maxVDC.gt (.fin 0)) = false ∧ e.warning = false := by
  refine ⟨ProcessBinaryFile_total file d, ?_⟩
  intro o e c ho he hlo hhi hall
  obtain ⟨hd, data, q, _, rfl⟩ := events_of_run file d o ho e he
  have hlen : (eventAt d data q).samples.length = getNSamples d := by
    simp [eventAt, samplesAt_length]
  have h2 : ∃ n, getNSamples d = n + 2 := by
    rcases hd with rfl | rfl
    · exact ⟨108, rfl⟩
    · exact ⟨1022, rfl⟩
  obtain ⟨n, hn⟩ := h2
  have hs : (eventAt d data q).samples = List.replicate (n + 2) (.fin c) := by
    rw [List.eq_replicate_iff]
    exact ⟨by rw [hlen, hn], hall⟩
  have hr : rangeOf (eventAt d data q).samples = (.fin c, .fin c) := by
    rw [hs, rangeOf, fold_replicate]
    simp [stepRange, Float32.lt, Float32.gt, hlo, hhi]
  have hmin : (eventAt d data q).minVDC = .fin c := by
    rw [eventAt_minVDC, hr]
  have hmax : (eventAt d data q).maxVDC = .fin c := by
    rw [eventAt_maxVDC, hr]
  have hc : ((eventAt d data q).minVDC.lt (.fin 0)
      && (eventAt d data q).maxVDC.gt (.fin 0)) = false := by
    rw [hmin, hmax]
    simp only [Float32.lt, Float32.gt, Bool.and_eq_false_imp, decide_eq_true_eq,
      decide_eq_false_iff_not]
    intro h
    linarith
  exact ⟨by rw [hlen, hn]; omega, hmin, hmax, hc, by rw [eventAt_warning, hc]⟩

theorem constant_event_witness :
    isCorrectDigitiser (firstHeader desktopFlat) 'D' = true ∧
    (eventAt 'D' desktopFlat 0).samples = List.replicate 1024 (.fin (5 / 2)) ∧
    (eventAt 'D' desktopFlat 0).minVDC = .fin (5 / 2) ∧
    (eventAt 'D' desktopFlat 0).maxVDC = .fin (5 / 2) ∧
    (eventAt 'D' desktopFlat 0).warning = false := by
  have hh : isCorrectDigitiser (firstHeader desktopFlat) 'D' = true := by
    rw [desktopFlat]
    exact firstHeader_desktopRecord _
  have hall : ∀ s ∈ (eventAt 'D' desktopFlat 0).samples, s = .fin (5 / 2) := by
    intro s hs
    rw [desktopFlat_samples] at hs
    exact List.eq_of_mem_replicate hs
  have h := (constant_event (some desktopFlat) 'D').2
    ⟨(nPasses 'D' desktopFlat : Nat), eventsOf 'D' desktopFlat, finalStream 'D' desktopFlat⟩
    (eventAt 'D' desktopFlat 0) (5 / 2) (ProcessBinaryFile_match desktopFlat 'D' hh)
  simp only [] at h
  have h' := h (eventAt_zero_mem 'D' desktopFlat) (by norm_num) (by norm_num) hall
  exact ⟨hh, desktopFlat_samples, h'.2.1, h'.2.2.1, h'.2.2.2.2⟩

/-- C13, the claim fails: for the digitiser 'X' and the 7-byte file
`desktopMagic`, `ProcessBinaryFile` returns -1 with the cursor at offset 4,
after one read, not at offset 0. -/
theorem unsupported_digitiser_reads_header :
    (ProcessBinaryFile (some desktopMagic) 'X').map
        (fun o => (o.ret, o.fileStream.pos, o.fileStream.reads)) = some (-1, 4, 1) := by
  decide

/-- C13, amended: for a digitiser other than 'V' and 'D' and every opened
file, `ProcessBinaryFile` returns -1 from the check of the first header
field: exactly one read, of 4 bytes, was made, the cursor is at offset 4 (at
the end of a file shorter than that), and no event is logged. -/
theorem unsupported_digitiser_returns_error (d : Char) (data : List Byte)
    (hV : d ≠ 'V') (hD : d ≠ 'D') :
    ∃ o, ProcessBinaryFile (some data) d = some o ∧ o.ret = -1 ∧ o.events = [] ∧
      o.fileStream.reads = 1 ∧ o.fileStream.pos = min 4 data.length := by
  have hh : isCorrectDigitiser (firstHeader data) d = false := by
    simp [isCorrectDigitiser, hV, hD]
  refine ⟨_, ProcessBinaryFile_mismatch data d hh, rfl, rfl, ?_, ?_⟩
  · simp only [streamAt]; split <;> rfl
  · simp only [streamAt]; split
    · simp only []; omega
    · simp only []; omega

theorem unsupported_digitiser_returns_error_witness :
    ∃ o, ProcessBinaryFile (some vmeOne) 'X' = some o ∧ o.ret = -1 ∧ o.events = [] ∧
      o.fileStream.reads = 1 ∧ o.fileStream.pos = min 4 vmeOne.length :=
  unsupported_digitiser_returns_error 'X' vmeOne (by decide) (by decide)

theorem slice_two (data : List Byte) (q : Nat) (h : q + 2 ≤ data.length) :
    slice data q 2
      = [data.get ⟨q, by omega⟩, data.get ⟨q + 1, by omega⟩] := by
  have h0 : q < data.length := by omega
  have h1 : q + 1 < data.length := by omega
  simp only [slice, List.drop_eq_getElem_cons h0, List.drop_eq_getElem_cons h1, List.take_succ_cons,
    List.take_zero, List.length_cons, List.length_nil, List.get_eq_getElem]
  rfl

theorem decodeSample_V_pair (b0 b1 : Byte) :
    decodeSample 'V' [b0, b1] = .fin ((b0.val + 256 * b1.val : Nat) : ℚ) ∧
      b0.val + 256 * b1.val ≤ 65535 := by
  have h0 := b0.isLt
  have h1 := b1.isLt
  have hle : b0.val + 256 * b1.val ≤ 65535 := by omega
  refine ⟨?_, hle⟩
  have hm : (b0.val + 256 * (b1.val + 256 * 0)) % 2 ^ 16 = b0.val + 256 * b1.val := by
    omega
  simp only [decodeSample, if_true, Float32.ofUInt16, toUInt16, leNat, hm]

/-- C14: for digitiser 'V' and a file whose first header field is 244, sample
`j` (from 0) of every record that lies wholly in the file, record `r` counted
from 0 (the claim's `i` is `r + 1`), is the unsigned value `b0 + 256 * b1` of
the two file bytes at offsets `r * 244 + 24 + 2 * j` and the next, unscaled,
and so an integer from 0 to 65535. -/
theorem vme_sample_decoding (data : List Byte) (r j : Nat)
    (hh : firstHeader data = 244) (hfull : (r + 1) * 244 ≤ data.length) (hj : j < 110) :
    ∃ o e b0 b1, ProcessBinaryFile (some data) 'V' = some o ∧
      o.events[r]? = some e ∧
      data[r * 244 + 24 + 2 * j]? = some b0 ∧ data[r * 244 + 24 + 2 * j + 1]? = some b1 ∧
      e.samples[j]? = some (.fin ((b0.val + 256 * b1.val : Nat) : ℚ)) ∧
      b0.val + 256 * b1.val ≤ 65535 := by
  have hh' : isCorrectDigitiser (firstHeader data) 'V' = true := by
    simp [isCorrectDigitiser, hh]
  have hq : r * 244 + 24 + 2 * j + 2 ≤ data.length := by omega
  have hr : r < nPasses 'V' data := by
    have : r + 1 ≤ data.length / 244 := (Nat.le_div_iff_mul_le (by decide)).mpr hfull
    simp only [nPasses, recordSize_V]
    omega
  refine ⟨_, eventAt 'V' data (r * 244), data.get ⟨r * 244 + 24 + 2 * j, by omega⟩,
    data.get ⟨r * 244 + 24 + 2 * j + 1, by omega⟩,
    ProcessBinaryFile_match data 'V' hh', ?_, ?_, ?_, ?_, (decodeSample_V_pair _ _).2⟩
  · simp only [eventsOf, List.getElem?_map, List.getElem?_range hr, Option.map_some',
      recordSize_V]
  · simp only [List.get_eq_getElem, List.getElem?_eq_getElem (show r * 244 + 24 + 2 * j < data.length by omega)]
  · simp only [List.get_eq_getElem, List.getElem?_eq_getElem (show r * 244 + 24 + 2 * j + 1 < data.length by omega)]
  · have hs : (eventAt 'V' data (r * 244)).samples[j]?
        = some (decodeSample 'V' (slice data (r * 244 + 24 + 2 * j) 2)) := by
      simp only [eventAt, samplesAt, List.getElem?_map,
        List.getElem?_range (show j < getNSamples 'V' from hj), Option.map_some']
      rfl
    rw [hs, slice_two data _ hq, (decodeSample_V_pair _ _).1]

theorem vme_sample_decoding_witness :
    ∃ o e b0 b1, ProcessBinaryFile (some vmeFalling) 'V' = some o ∧
      o.events[0]? = some e ∧
      vmeFalling[0 * 244 + 24 + 2 * 0]? = some b0 ∧
      vmeFalling[0 * 244 + 24 + 2 * 0 + 1]? = some b1 ∧
      e.samples[0]? = some (.fin ((b0.val + 256 * b1.val : Nat) : ℚ)) ∧
      b0.val + 256 * b1.val ≤ 65535 :=
  vme_sample_decoding vmeFalling 0 0 (by decide) (by decide) (by decide)

namespace Float32

theorem le_of_lt {a b : Float32} (h : lt a b = true) : le a b = true := by
  cases a <;> cases b <;> simp_all [lt, le]
  exact h.le

theorem eq_of_le_of_not_lt {a b : Float32} (h1 : le a b = true) (h2 : lt a b = false) :
    a = b := by
  cases a <;> cases b <;> simp_all [lt, le]
  exact le_antisymm h1 h2

theorem lt_of_le_of_neq {a b : Float32} (h1 : le a b = true) (h2 : a ≠ b) :
    lt a b = true := by
  cases a <;> cases b <;> simp_all [lt, le]
  exact lt_of_le_of_ne h1 h2

end Float32

/-- While no sample exceeds `maxVDC`, it stays. -/
theorem fold_snd_const (vs : List Float32) :
    ∀ acc : Float32 × Float32, (∀ s ∈ vs, s.le acc.2 = true) →
      (vs.foldl stepRange acc).2 = acc.2 := by
  induction vs with
  | nil => intro acc _; rfl
  | cons v vs ih =>
    intro acc h
    have hv : Float32.lt acc.2 v = false :=
      Float32.not_lt_of_le (h v (List.mem_cons_self _ _))
    have hs : (stepRange acc v).2 = acc.2 := by
      unfold stepRange
      split
      · rfl
      · simp [Float32.gt, hv]
    rw [List.foldl_cons, ih (stepRange acc v) (by
      intro s hsm
      rw [hs]
      exact h s (List.mem_cons_of_mem _ hsm)), hs]

/-- A largest sample met while `minVDC` is not above it becomes `maxVDC`. -/
theorem fold_snd_reaches (M : Float32) (vs : List Float32) :
    ∀ acc : Float32 × Float32, M ∈ vs → (∀ s ∈ vs, s.le M = true) →
      acc.1.le M = true → acc.2.le M = true → (vs.foldl stepRange acc).2 = M := by
  induction vs with
  | nil => intro acc hM; simp at hM
  | cons v vs ih =>
    intro acc hM hall h1 h2
    have hv : v.le M = true := hall v (List.mem_cons_self _ _)
    have hrest : ∀ s ∈ vs, s.le M = true := fun s hs => hall s (List.mem_cons_of_mem _ hs)
    rw [List.foldl_cons]
    rcases List.mem_cons.mp hM with rfl | hM
    · have hn : Float32.lt M acc.1 = false := Float32.not_lt_of_le h1
      have hs : (stepRange acc M).2 = M := by
        unfold stepRange
        rw [hn]
        simp only [Bool.false_eq_true, if_false]
        split
        · rfl
        · rename_i hg
          have : Float32.lt acc.2 M = false := by simpa [Float32.gt] using hg
          exact Float32.eq_of_le_of_not_lt h2 this
      rw [fold_snd_const vs (stepRange acc M) (by rw [hs]; exact hrest), hs]
    · apply ih (stepRange acc v) hM hrest
      · unfold stepRange
        split
        · exact hv
        · split
          · exact h1
          · exact h1
      · unfold stepRange
        split
        · exact h2
        · split
          · exact hv
          · exact h2

/-- C15: every call returns, and for every event of the log whose samples
all lie strictly between -100000 and 100000 and whose largest sample is `M`,
`maxVDC` ends as `M` exactly when `M` occurs among the samples after the
first; when it occurs as the first sample only, `maxVDC` ends strictly below
`M`. -/
theorem maxVDC_iff_max_after_first (file : Option (List Byte)) (d : Char) :
    (∃ o, ProcessBinaryFile file d = some o) ∧
    ∀ o e M, ProcessBinaryFile file d = some o → e ∈ o.events →
      (∀ s ∈ e.samples, Float32.lt (.fin (-100000)) s = true ∧ s.lt (.fin 100000) = true) →
      M ∈ e.samples → (∀ s ∈ e.samples, s.le M = true) →
      (e.maxVDC = M ↔ M ∈ e.samples.tail) ∧
      (M ∉ e.samples.tail → e.maxVDC.lt M = true) := by
  refine ⟨ProcessBinaryFile_total file d, ?_⟩
  intro o e M ho he hb hM hall
  obtain ⟨hd, data, q, _, rfl⟩ := events_of_run file d o ho e he
  have hmax := eventAt_maxVDC d data q
  have hne := eventAt_samples_ne_nil d hd data q
  cases hsam : (eventAt d data q).samples with
  | nil => exact absurd hsam hne
  | cons v0 vs =>
    rw [hsam] at hb hM hall hmax
    have h0 : stepRange (.fin 100000, .fin (-100000)) v0 = (v0, .fin (-100000)) := by
      simp [stepRange, (hb v0 (List.mem_cons_self _ _)).2]
    rw [rangeOf, List.foldl_cons, h0] at hmax
    have hstrict : M ∉ vs → (eventAt d data q).maxVDC.lt M = true := by
      intro hnot
      rw [hmax]
      rcases fold_snd_mem vs (v0, .fin (-100000)) with h | h
      · rw [h]
        exact (hb M hM).1
      · apply Float32.lt_of_le_of_neq (hall _ (List.mem_cons_of_mem _ h))
        intro heq
        exact hnot (heq ▸ h)
    simp only [List.tail_cons]
    refine ⟨⟨?_, ?_⟩, hstrict⟩
    · intro heq
      by_contra hnot
      have := hstrict hnot
      rw [heq, Float32.lt_self] at this
      cases this
    · intro hin
      rw [hmax]
      exact fold_snd_reaches M vs (v0, .fin (-100000)) hin
        (fun s hs => hall s (List.mem_cons_of_mem _ hs))
        (hall v0 (List.mem_cons_self _ _)) (Float32.le_of_lt (hb M hM).1)

theorem maxVDC_iff_max_after_first_witness :
    (∀ s ∈ (eventAt 'V' vmeFalling 0).samples,
      Float32.lt (.fin (-100000)) s = true ∧ s.lt (.fin 100000) = true) ∧
    Float32.fin 5 ∈ (eventAt 'V' vmeFalling 0).samples ∧
    (∀ s ∈ (eventAt 'V' vmeFalling 0).samples, s.le (.fin 5) = true) ∧
    Float32.fin 5 ∉ (eventAt 'V' vmeFalling 0).samples.tail ∧
    (eventAt 'V' vmeFalling 0).maxVDC.lt (.fin 5) = true :=
  ⟨by decide, by decide, by decide, by decide,
   ((maxVDC_iff_max_after_first (some vmeFalling) 'V').2 _ (eventAt 'V' vmeFalling 0) (.fin 5)
      (ProcessBinaryFile_match vmeFalling 'V' (by decide)) (eventAt_zero_mem 'V' vmeFalling)
      (by decide) (by decide) (by decide)).2 (by decide)⟩

theorem slice_beyond (data : List Byte) (q n : Nat) (h : data.length ≤ q) :
    slice data q n = List.replicate n 0 := by
  simp only [slice, List.drop_eq_nil_of_le h, List.take_nil, List.length_nil, Nat.sub_zero,
    List.nil_append]

/-- A sample read that stores nothing leaves `VDC = 0`. -/
theorem decodeSample_zeros (d : Char) (hd : d = 'V' ∨ d = 'D') :
    decodeSample d (List.replicate (sampleWidth d) 0) = .fin 0 := by
  rcases hd with rfl | rfl
  · have h : leNat (List.replicate (sampleWidth 'V') 0) = 0 := by decide
    simp [decodeSample, Float32.ofUInt16, toUInt16, h]
  · have h : leNat (List.replicate (sampleWidth 'D') 0) = 0 := by decide
    have hc : ¬ ('D' = 'V') := by decide
    simp only [decodeSample, Float32.ofBytes, h, hc, if_false]
    norm_num

theorem fold_fst_ne_nan (vs : List Float32) (acc : Float32 × Float32)
    (h : acc.1 ≠ .nan) : (vs.foldl stepRange acc).1 ≠ .nan := by
  rcases fold_fst_le vs acc with h1 | h1
  · rw [h1]; exact h
  · exact Float32.ne_nan_of_lt h1

theorem nPasses_eq (d : Char) (data : List Byte) (k p : Nat)
    (hlen : data.length = k * recordSize d + p) (hp : p < recordSize d) :
    nPasses d data = k + 1 := by
  have h : data.length / recordSize d = k := by
    apply Nat.div_eq_of_lt_le
    · omega
    · rw [Nat.succ_mul]; omega
  rw [nPasses, h]

theorem eventsOf_getElem? (d : Char) (data : List Byte) (k : Nat)
    (hk : k < nPasses d data) :
    (eventsOf d data)[k]? = some (eventAt d data (k * recordSize d)) := by
  simp only [eventsOf, List.getElem?_map, List.getElem?_range hk, Option.map_some']

theorem eventAt_samples_getElem? (d : Char) (data : List Byte) (q j : Nat)
    (hj : j < getNSamples d) :
    (eventAt d data q).samples[j]?
      = some (decodeSample d (slice data (q + 24 + sampleWidth d * j) (sampleWidth d))) := by
  simp only [eventAt, samplesAt, List.getElem?_map, List.getElem?_range hj, Option.map_some']

/-- C16: for digitiser 'V' or 'D' and an opened file whose first header field
passes the check and that ends inside a record (`k` complete records and
`0 < p < recordSize` more bytes), `ProcessBinaryFile` returns `k + 1`, not -1:
the partial record is counted and has the log entry `k` (from 0), whose
`minVDC` and `maxVDC` are the range of all `getNSamples` sample values; every
sample `j` of it whose bytes lie beyond the end of the file is 0, and with
such a sample `minVDC` ends at most 0. -/
theorem truncated_record_counted (d : Char) (data : List Byte) (k p : Nat)
    (hh : isCorrectDigitiser (firstHeader data) d = true)
    (hlen : data.length = k * recordSize d + p) (_hp0 : 0 < p) (hp : p < recordSize d) :
    ∃ o e, ProcessBinaryFile (some data) d = some o ∧ o.ret = (k : Int) + 1 ∧ o.ret ≠ -1 ∧
      o.events.length = k + 1 ∧ o.events[k]? = some e ∧
      e.samples.length = getNSamples d ∧ (e.minVDC, e.maxVDC) = rangeOf e.samples ∧
      ∀ j, j < getNSamples d → data.length ≤ k * recordSize d + 24 + sampleWidth d * j →
        e.samples[j]? = some (.fin 0) ∧ e.minVDC.le (.fin 0) = true := by
  have hd := isCorrectDigitiser_supported _ _ hh
  have hn := nPasses_eq d data k p hlen hp
  refine ⟨_, eventAt d data (k * recordSize d), ProcessBinaryFile_match data d hh,
    ?_, ?_, ?_, ?_, ?_, rfl, ?_⟩
  · simp only [hn]; push_cast; rfl
  · simp only [hn]; omega
  · simp only [eventsOf, List.length_map, List.length_range, hn]
  · exact eventsOf_getElem? d data k (by omega)
  · simp [eventAt, samplesAt_length]
  · intro j hj hbeyond
    have hs : (eventAt d data (k * recordSize d)).samples[j]? = some (.fin 0) := by
      rw [eventAt_samples_getElem? d data _ j hj, slice_beyond data _ _ hbeyond,
        decodeSample_zeros d hd]
    refine ⟨hs, ?_⟩
    have hmem : Float32.fin 0 ∈ (eventAt d data (k * recordSize d)).samples :=
      List.getElem?_mem hs
    apply Float32.le_of_not_lt
    · rw [eventAt_minVDC]
      exact fold_fst_ne_nan _ _ (by simp)
    · simp
    · rw [eventAt_minVDC]
      exact fold_fst_lower _ _ _ hmem

theorem truncated_record_counted_witness :
    vmeTruncated.length = 1 * recordSize 'V' + 26 ∧
    ∃ o e, ProcessBinaryFile (some vmeTruncated) 'V' = some o ∧ o.ret = ((1 : Nat) : Int) + 1 ∧
      o.ret ≠ -1 ∧ o.events.length = 1 + 1 ∧ o.events[1]? = some e ∧
      e.samples.length = getNSamples 'V' ∧ (e.minVDC, e.maxVDC) = rangeOf e.samples ∧
      ∀ j, j < getNSamples 'V' →
        vmeTruncated.length ≤ 1 * recordSize 'V' + 24 + sampleWidth 'V' * j →
        e.samples[j]? = some (.fin 0) ∧ e.minVDC.le (.fin 0) = true :=
  ⟨by decide,
   truncated_record_counted 'V' vmeTruncated 1 26 (by decide) (by decide) (by decide)
    (by decide)⟩

/-- C17: for an opened file of `L` bytes whose first header field passes the
check of digitiser 'V' or 'D', `ProcessBinaryFile` returns `L / R + 1`, with
`R` the record size, 244 for 'V' and 4120 for 'D': at least 1, and `k + 1`
for `k` complete records, followed by a partial record or not. No lower bound
on `L` is needed: bytes the file lacks read as 0. -/
theorem returns_records_plus_one (d : Char) (data : List Byte)
    (hh : isCorrectDigitiser (firstHeader data) d = true) :
    ∃ o, ProcessBinaryFile (some data) d = some o ∧
      o.ret = ((data.length / recordSize d + 1 : Nat) : Int) ∧ 1 ≤ o.ret ∧
      recordSize d = (if d = 'V' then 244 else 4120) ∧
      ∀ k p, data.length = k * recordSize d + p → p < recordSize d →
        o.ret = (k : Int) + 1 := by
  have hd := isCorrectDigitiser_supported _ _ hh
  refine ⟨_, ProcessBinaryFile_match data d hh, rfl, ?_, ?_, ?_⟩
  · have h1 : 1 ≤ nPasses d data := Nat.succ_pos _
    show (1 : Int) ≤ ((nPasses d data : Nat) : Int)
    exact_mod_cast h1
  · rcases hd with rfl | rfl
    · exact recordSize_V
    · exact recordSize_D
  · intro k p hlen hp
    simp only [nPasses_eq d data k p hlen hp]
    push_cast
    rfl

theorem returns_records_plus_one_witness :
    vmeTwo.length = 2 * recordSize 'V' + 0 ∧ vmeTruncated.length = 1 * recordSize 'V' + 26 ∧
    (∃ o, ProcessBinaryFile (some vmeTwo) 'V' = some o ∧ o.ret = 3) ∧
    (∃ o, ProcessBinaryFile (some vmeTruncated) 'V' = some o ∧ o.ret = 2) := by
  refine ⟨by decide, by decide, ?_, ?_⟩
  · obtain ⟨o, ho, _, _, _, hk⟩ := returns_records_plus_one 'V' vmeTwo (by decide)
    exact ⟨o, ho, hk 2 0 (by decide) (by decide)⟩
  · obtain ⟨o, ho, _, _, _, hk⟩ := returns_records_plus_one 'V' vmeTruncated (by decide)
    exact ⟨o, ho, hk 1 26 (by decide) (by decide)⟩

/-- C18: for digitiser 'V' every call returns, and every event of the log
ends with `minVDC` an integer from 0 to 65535, so the zero-crossing condition
is false and no warning is printed. -/
theorem vme_never_warns (file : Option (List Byte)) :
    (∃ o, ProcessBinaryFile file 'V' = some o) ∧
    ∀ o, ProcessBinaryFile file 'V' = some o → ∀ e ∈ o.events,
      (∃ u : Nat, u ≤ 65535 ∧ e.minVDC = .fin (u : ℚ)) ∧
      Float32.le (.fin 0) e.minVDC = true ∧ e.minVDC.le (.fin 65535) = true ∧
      (e.minVDC.lt (.fin 0) && e.maxVDC.gt (.fin 0)) = false ∧ e.warning = false := by
  refine ⟨ProcessBinaryFile_total file 'V', ?_⟩
  intro o ho e he
  obtain ⟨_, data, q, _, rfl⟩ := events_of_run file 'V' o ho e he
  have hlt : ∀ s ∈ (eventAt 'V' data q).samples, s.lt (.fin 100000) = true := by
    intro s hs
    obtain ⟨u, hu, rfl⟩ := samples_V data q s hs
    have : (u : ℚ) ≤ 65535 := by exact_mod_cast hu
    simp only [Float32.lt, decide_eq_true_eq]
    linarith
  have hmem : (eventAt 'V' data q).minVDC ∈ (eventAt 'V' data q).samples :=
    rangeOf_fst_mem _ (eventAt_samples_ne_nil 'V' (Or.inl rfl) data q) hlt
  obtain ⟨u, hu, hmin⟩ := samples_V data q _ hmem
  have hu' : (u : ℚ) ≤ 65535 := by exact_mod_cast hu
  have hu0 : (0 : ℚ) ≤ (u : ℚ) := Nat.cast_nonneg u
  have hc : ((eventAt 'V' data q).minVDC.lt (.fin 0)
      && (eventAt 'V' data q).maxVDC.gt (.fin 0)) = false := by
    rw [hmin]
    simp [Float32.lt, hu0]
  refine ⟨⟨u, hu, hmin⟩, ?_, ?_, hc, by rw [eventAt_warning, hc]⟩
  · rw [hmin]; simp [Float32.le, hu0]
  · rw [hmin]; simp [Float32.le, hu']

theorem vme_never_warns_witness :
    (eventAt 'V' vmeOne 0).minVDC = .fin 5 ∧
    (∃ u : Nat, u ≤ 65535 ∧ (eventAt 'V' vmeOne 0).minVDC = .fin (u : ℚ)) ∧
    (eventAt 'V' vmeOne 0).warning = false :=
  have h := (vme_never_warns (some vmeOne)).2 _
    (ProcessBinaryFile_match vmeOne 'V' (by decide)) _ (eventAt_zero_mem 'V' vmeOne)
  ⟨by decide, h.1, h.2.2.2.2⟩

/-- C19: for digitiser 'V' or 'D' the one header value that passes
`isCorrectDigitiser` is the number of bytes one pass through the body of the
`while` loop consumes, `6 * 4 + getNSamples d * w` with `w = 2` for 'V' and
`w = 4` for 'D', that is 244 and 4120: on a file that holds a whole record the
first pass leaves the cursor at that offset, the stream still good. -/
theorem magic_is_record_size (d : Char) (hd : d = 'V' ∨ d = 'D') :
    (∀ header : Int, isCorrectDigitiser header d = true ↔ header = (recordSize d : Int)) ∧
    recordSize d = 6 * 4 + getNSamples d * sampleWidth d ∧
    sampleWidth 'V' = 2 ∧ sampleWidth 'D' = 4 ∧
    recordSize 'V' = 24 + 110 * 2 ∧ recordSize 'V' = 244 ∧
    recordSize 'D' = 24 + 1024 * 4 ∧ recordSize 'D' = 4120 ∧
    ∀ data, isCorrectDigitiser (firstHeader data) d = true → recordSize d ≤ data.length →
      ∃ fs ev, eventBody d 1 (IfStream.ofFile (some data)) = .ok (fs, ev) ∧
        fs.pos = recordSize d ∧ fs.good = true ∧ fs.reads = 6 + getNSamples d := by
  refine ⟨?_, rfl, rfl, rfl, rfl, rfl, rfl, rfl, ?_⟩
  · intro header
    rcases hd with rfl | rfl
    · rw [recordSize_V]
      simp [isCorrectDigitiser]
    · rw [recordSize_D]
      simp [isCorrectDigitiser]
  · intro data hh hlen
    have hb := eventBody_streamAt d hd 1 data 0 0 (Or.inr (by simpa [firstHeader] using hh))
    rw [← streamAt_zero] at hb
    have hle : 0 + recordSize d ≤ data.length := by omega
    refine ⟨_, _, hb, ?_, ?_, ?_⟩
    · simp only [streamAt, hle, if_true]; omega
    · simp only [streamAt, hle, if_true, IfStream.good]; rfl
    · simp only [streamAt, hle, if_true]; omega

theorem magic_is_record_size_witness :
    (∀ header : Int, isCorrectDigitiser header 'V' = true ↔ header = (recordSize 'V' : Int)) ∧
    ∃ fs ev, eventBody 'V' 1 (IfStream.ofFile (some vmeOne)) = .ok (fs, ev) ∧
      fs.pos = recordSize 'V' ∧ fs.good = true ∧ fs.reads = 6 + getNSamples 'V' :=
  have h := magic_is_record_size 'V' (Or.inl rfl)
  ⟨h.1, h.2.2.2.2.2.2.2.2 vmeOne (by decide) (by decide)⟩

theorem sampleLoop_ok (d : Char) (hd : d = 'V' ∨ d = 'D') :
    ∀ (n : Nat) (p : Pulse), ∃ p', sampleLoop d n p = .ok p'
  | 0, p => ⟨p, rfl⟩
  | n + 1, p => by
    have hs : ∃ p1, sampleStep d p = .ok p1 := by
      rcases hd with rfl | rfl
      · exact ⟨_, if_pos rfl⟩
      · exact ⟨_, (if_neg (by decide)).trans (if_pos rfl)⟩
    obtain ⟨p1, h1⟩ := hs
    obtain ⟨p', h'⟩ := sampleLoop_ok d hd n p1
    exact ⟨p', by simp only [sampleLoop, h1, h']⟩

/-- C20: for every digitiser character the sample loop, run as the program
runs it for `getNSamples digitiser` iterations, never takes the `return -1`
of its `else` branch: for 'V' and 'D' every iteration takes one of the first
two branches, for any other character there is no iteration. So a `return -1`
of the loop body is the one of the header loop, and a call that returns -1
does so on an opened file whose first header field fails the check, after
one read. -/
theorem sample_loop_error_branch_dead (file : Option (List Byte)) (d : Char) :
    (∀ p, ∃ p', sampleLoop d (getNSamples d) p = .ok p') ∧
    (d ≠ 'V' → d ≠ 'D' → getNSamples d = 0) ∧
    (∀ nEvents fs fs', eventBody d nEvents fs = .error fs' →
      headerLoop d nEvents 6 0 fs = .error fs') ∧
    ∃ o, ProcessBinaryFile file d = some o ∧
      (o.ret = -1 → ∃ data, file = some data ∧
        isCorrectDigitiser (firstHeader data) d = false ∧
        o.fileStream.reads = 1 ∧ o.events = []) := by
  have hloop : ∀ p, ∃ p', sampleLoop d (getNSamples d) p = .ok p' := by
    intro p
    by_cases hV : d = 'V'
    · exact sampleLoop_ok d (Or.inl hV) _ p
    · by_cases hD : d = 'D'
      · exact sampleLoop_ok d (Or.inr hD) _ p
      · exact ⟨p, by simp [getNSamples, hV, hD, sampleLoop]⟩
  refine ⟨hloop, ?_, ?_, ?_⟩
  · intro hV hD
    simp [getNSamples, hV, hD]
  · intro nEvents fs fs' h
    unfold eventBody at h
    cases hh : headerLoop d nEvents 6 0 fs with
    | error fs1 =>
      rw [hh] at h
      simpa using h
    | ok fs1 =>
      rw [hh] at h
      obtain ⟨p', hp⟩ := hloop ⟨fs1, .fin 100000, .fin (-100000), []⟩
      simp only [hp] at h
      cases h
  · cases file with
    | none =>
      refine ⟨_, ProcessBinaryFile_unopened d, ?_⟩
      intro h
      simp at h
    | some data =>
      cases hh : isCorrectDigitiser (firstHeader data) d with
      | true =>
        refine ⟨_, ProcessBinaryFile_match data d hh, ?_⟩
        intro h
        exfalso
        have h' : ((nPasses d data : Nat) : Int) = -1 := h
        omega
      | false =>
        refine ⟨_, ProcessBinaryFile_mismatch data d hh, ?_⟩
        intro _
        refine ⟨data, rfl, hh, ?_, rfl⟩
        simp only [streamAt]
        split <;> rfl

end BinToRoot
